import Mathlib

/-!
Shallow embedding of the paper-cut forms generator core (utils.js, warp.js,
shapes.js and the simplex-noise texture synthesizer), together with theorems
that check the specification's claims about it.

JavaScript numbers are idealized as exact arithmetic: rational numbers where
the code is purely algebraic, real numbers where the code evaluates
trigonometric functions (Math.sin, Math.cos).
-/

namespace PaperCut

/-- The function map(value, start1, stop1, start2, stop2) from utils.js: linear
remap of value from the interval [start1, stop1] to [start2, stop2].  Defined
over any field so that it serves both at rational layer parameters and at real
warp geometry. -/
def map {α : Type} [Field α] (value start1 stop1 start2 stop2 : α) : α :=
  start2 + (stop2 - start2) * ((value - start1) / (stop1 - start1))

/-- JS Math.round on exact rationals: round half toward positive infinity. -/
def jsRound (x : ℚ) : ℤ := ⌊x + 1 / 2⌋

/-- The function random(min, max, float) from utils.js, with the hidden call to
Math.random() made explicit as the argument u (one uniform draw in [0,1)):
val = u * (max - min) + min, floored unless float is requested. -/
def random (min max : ℚ) (float : Bool) (u : ℚ) : ℚ :=
  let val := u * (max - min) + min
  if float then val else ⌊val⌋

/-- An RGB color triple, as produced by hexToRgb in utils.js. -/
structure Rgb where
  r : ℤ
  g : ℤ
  b : ℤ
deriving DecidableEq

/-- Value of one hexadecimal digit, case-insensitive; this is the character
class [a-f\d] (with its case-insensitive flag) of the regex in hexToRgb. -/
def hexDigitVal (c : Char) : Option ℤ :=
  if '0' ≤ c ∧ c ≤ '9' then some ((c.toNat : ℤ) - 48)
  else if 'a' ≤ c ∧ c ≤ 'f' then some ((c.toNat : ℤ) - 87)
  else if 'A' ≤ c ∧ c ≤ 'F' then some ((c.toNat : ℤ) - 55)
  else none

/-- parseInt(digits, 16) on one captured two-digit group of the regex. -/
def parseHexPair (c1 c2 : Char) : Option ℤ :=
  match hexDigitVal c1, hexDigitVal c2 with
  | some h, some l => some (16 * h + l)
  | _, _ => none

/-- The optional leading hash sign of the hexToRgb regex (the ^#? part). -/
def stripHash : List Char → List Char
  | '#' :: rest => rest
  | cs => cs

/-- The regex ^#?([a-f\d]{2})([a-f\d]{2})([a-f\d]{2})$/i of hexToRgb: an
optional leading hash sign, then exactly six case-insensitive hex digits,
captured as three two-digit groups. -/
def hexMatch (s : String) : Option (ℤ × ℤ × ℤ) :=
  match stripHash s.data with
  | [c1, c2, c3, c4, c5, c6] =>
    match parseHexPair c1 c2, parseHexPair c3 c4, parseHexPair c5 c6 with
    | some r, some g, some b => some (r, g, b)
    | _, _, _ => none
  | _ => none

/-- hexToRgb from utils.js: parse the hex color, black on regex failure. -/
def hexToRgb (s : String) : Rgb :=
  match hexMatch s with
  | some (r, g, b) => ⟨r, g, b⟩
  | none => ⟨0, 0, 0⟩

/-- Fuel-driven base-16 printer, most significant digit first, lowercase digit
characters, as in JS Number.prototype.toString(16) for nonnegative integers. -/
def toHexCore : ℕ → ℕ → List Char → List Char
  | 0, _, ds => ds
  | fuel + 1, n, ds =>
    let d := Nat.digitChar (n % 16)
    if n < 16 then d :: ds
    else toHexCore fuel (n / 16) (d :: ds)

/-- Base-16 lowercase representation of a natural number, JS n.toString(16). -/
def natToHex (n : ℕ) : List Char := toHexCore (n + 1) n []

/-- rgbToHex from utils.js:
a hash sign plus ((1 << 24) + (r << 16) + (g << 8) + b).toString(16).slice(1). -/
def rgbToHex (r g b : ℤ) : String :=
  let n := (2 ^ 24 + r * 2 ^ 16 + g * 2 ^ 8 + b).toNat
  "#" ++ String.mk (natToHex n).tail

/-- interpolateColor from utils.js: per-channel linear blend between the two
parsed colors at parameter t, each channel rounded, then re-encoded as hex. -/
def interpolateColor (color1 color2 : String) (t : ℚ) : String :=
  let c1 := hexToRgb color1
  let c2 := hexToRgb color2
  let r := jsRound ((c1.r : ℚ) + ((c2.r : ℚ) - (c1.r : ℚ)) * t)
  let g := jsRound ((c1.g : ℚ) + ((c2.g : ℚ) - (c1.g : ℚ)) * t)
  let b := jsRound ((c1.b : ℚ) + ((c2.b : ℚ) - (c1.b : ℚ)) * t)
  rgbToHex r g b

/-- The rotation factor computed by generateShapes in shapes.js for layer i:
rotateFactor = map(i, frequency, 1, 0, maxRotate).  Note the domain lower
bound 1 (not 2). -/
def rotateFactor (frequency maxRotate : ℚ) (i : ℚ) : ℚ :=
  map i frequency 1 0 maxRotate

/-- The descending index sequence of the layer loop in generateShapes:
for (let i = frequency; i >= 2; i--). -/
def layerIndices : ℕ → List ℕ
  | 0 => []
  | 1 => []
  | n + 2 => (n + 2) :: layerIndices (n + 1)

/-- One layer record, as pushed into shapeMetadata by generateShapes: the layer
index i, the nominal size i * scaleConstant handed to createShape, and the
rotation applied to the layer. -/
structure LayerMeta where
  layer : ℕ
  size : ℚ
  rotate : ℚ
deriving DecidableEq

/-- The ordered layer sequence emitted by the main loop of generateShapes,
outermost first. -/
def generatedLayers (frequency : ℕ) (scaleConstant maxRotate : ℚ) : List LayerMeta :=
  (layerIndices frequency).map fun i =>
    ⟨i, (i : ℚ) * scaleConstant, rotateFactor (frequency : ℚ) maxRotate (i : ℚ)⟩

theorem layerIndices_length : ∀ n, (layerIndices n).length = n - 1
  | 0 => rfl
  | 1 => rfl
  | n + 2 => by
      simp only [layerIndices, List.length_cons, layerIndices_length (n + 1)]
      omega

theorem layerIndices_getElem? :
    ∀ n k, k < n - 1 → (layerIndices n)[k]? = some (n - k)
  | 0, k, h => by omega
  | 1, k, h => by omega
  | n + 2, 0, _ => by simp [layerIndices]
  | n + 2, k + 1, h => by
      have ih := layerIndices_getElem? (n + 1) k (by omega)
      simp only [layerIndices, List.getElem?_cons_succ, ih]
      congr 1
      omega

theorem layerIndices_chain : ∀ n, List.Chain' (fun a b => b < a) (layerIndices n)
  | 0 => List.chain'_nil
  | 1 => List.chain'_nil
  | 2 => by simp [layerIndices]
  | n + 3 => by
      have ih := layerIndices_chain (n + 2)
      rw [layerIndices, List.chain'_cons']
      refine ⟨?_, ih⟩
      intro b hb
      rw [layerIndices] at hb
      simp only [List.head?_cons, Option.mem_def, Option.some.injEq] at hb
      omega

/-- C5 counterexample: with layerCount 3 and maxRotationDegrees 35, the
outermost generated layer i = 3 receives rotation map(3, 3, 1, 0, 35) = 0,
not the claimed maximum 35 (the code maps the domain [frequency, 1] to
[0, maxRotate], so the maximum sits at the innermost end, not the
outermost). -/
theorem rotateFactor_outermost_not_max :
    rotateFactor 3 35 3 = 0 ∧ (0 : ℚ) ≠ 35 := by
  constructor
  · norm_num [rotateFactor, map]
  · norm_num

/-- C5 amended: the rotation of layer i equals maxRotate * (N - i) / (N - 1):
it is 0 at the outermost layer i = N and grows linearly toward the inside,
the innermost generated layer i = 2 receiving maxRotate * (N - 2) / (N - 1)
(strictly less than maxRotate; the full maximum corresponds to i = 1,
outside the generated range). -/
theorem rotateFactor_linear_formula (N : ℕ) (M : ℚ) (hN : 2 ≤ N) :
    (∀ i : ℚ, rotateFactor N M i = M * ((N : ℚ) - i) / ((N : ℚ) - 1)) ∧
    rotateFactor N M N = 0 ∧
    rotateFactor N M 2 = M * ((N : ℚ) - 2) / ((N : ℚ) - 1) := by
  have h2 : (2 : ℚ) ≤ (N : ℚ) := by exact_mod_cast hN
  have hden1 : (1 : ℚ) - (N : ℚ) ≠ 0 := by intro h; linarith
  have hden2 : (N : ℚ) - 1 ≠ 0 := by intro h; linarith
  have hform : ∀ i : ℚ, rotateFactor N M i = M * ((N : ℚ) - i) / ((N : ℚ) - 1) := by
    intro i
    have key : (i - (N : ℚ)) / (1 - (N : ℚ)) = ((N : ℚ) - i) / ((N : ℚ) - 1) := by
      rw [div_eq_div_iff hden1 hden2]; ring
    rw [rotateFactor, map, key, mul_div_assoc]
    ring
  refine ⟨hform, ?_, hform 2⟩
  rw [hform ((N : ℚ))]
  simp

/-- Witness for the amended C5 at layerCount 3, maxRotate 35, innermost
layer i = 2. -/
theorem rotateFactor_linear_formula_witness :
    (2 ≤ 3) ∧ rotateFactor ((3 : ℕ) : ℚ) 35 2 =
      35 * (((3 : ℕ) : ℚ) - 2) / (((3 : ℕ) : ℚ) - 1) :=
  ⟨by norm_num, (rotateFactor_linear_formula 3 35 (by norm_num)).2.2⟩

/-- C6: with layerCount N ≥ 2 and positive layerScale s, the Layer Builder
loop emits exactly N - 1 layers; the layer at position k carries index N - k
(so the indices run N down to 2 in order) and nominal size (N - k) * s, and
the emitted sizes are strictly decreasing. -/
theorem generatedLayers_spec (N : ℕ) (s mr : ℚ) (hN : 2 ≤ N) (hs : 0 < s) :
    (generatedLayers N s mr).length = N - 1 ∧
    (∀ k, k < N - 1 →
      ((generatedLayers N s mr)[k]?.map fun m => (m.layer, m.size)) =
        some (N - k, ((N - k : ℕ) : ℚ) * s)) ∧
    List.Chain' (fun a b => b.size < a.size) (generatedLayers N s mr) := by
  refine ⟨?_, ?_, ?_⟩
  · simp [generatedLayers, layerIndices_length]
  · intro k hk
    simp [generatedLayers, List.getElem?_map, layerIndices_getElem? N k hk]
  · rw [generatedLayers, List.chain'_map]
    refine (layerIndices_chain N).imp ?_
    intro a b hba
    have : (b : ℚ) < (a : ℚ) := by exact_mod_cast hba
    simpa using mul_lt_mul_of_pos_right this hs

/-- Witness for C6 at layerCount 4, layerScale 5: three layers, the one at
position 1 having index 3 and size 15. -/
theorem generatedLayers_spec_witness :
    (2 ≤ 4) ∧ (0 : ℚ) < 5 ∧
    (generatedLayers 4 5 0).length = 4 - 1 ∧
    ((generatedLayers 4 5 0)[1]?.map fun m => (m.layer, m.size)) =
      some (4 - 1, (((4 - 1 : ℕ)) : ℚ) * 5) := by
  have h := generatedLayers_spec 4 5 0 (by norm_num) (by norm_num)
  exact ⟨by norm_num, by norm_num, h.1, h.2.1 1 (by norm_num)⟩

/-- Character-class test of the hexToRgb regex, written independently of the
parser: one case-insensitive hexadecimal digit. -/
def isHexDigitChar (c : Char) : Bool :=
  (decide ('0' ≤ c) && decide (c ≤ '9')) ||
  (decide ('a' ≤ c) && decide (c ≤ 'f')) ||
  (decide ('A' ≤ c) && decide (c ≤ 'F'))

/-- Whole-string test of the hexToRgb regex, written independently of the
parser: an optional leading hash sign, then exactly six hex digits. -/
def matchesHexColor (s : String) : Bool :=
  decide ((stripHash s.data).length = 6) && (stripHash s.data).all isHexDigitChar

theorem isHexDigitChar_eq_isSome (c : Char) : isHexDigitChar c = (hexDigitVal c).isSome := by
  rw [isHexDigitChar, hexDigitVal]
  split_ifs <;> simp_all

theorem parseHexPair_some (cA cB : Char) (v : ℤ) (h : parseHexPair cA cB = some v) :
    (hexDigitVal cA).isSome ∧ (hexDigitVal cB).isSome := by
  rw [parseHexPair] at h
  split at h
  next => simp_all
  next => simp_all

theorem jsRound_int (z : ℤ) : jsRound (z : ℚ) = z := by
  rw [jsRound, Int.floor_int_add]
  norm_num

theorem hexDigitVal_digitChar (v : ℕ) (hv : v < 16) :
    hexDigitVal (Nat.digitChar v) = some (v : ℤ) := by
  interval_cases v <;> decide

/-- One non-final step of the base-16 printer. -/
theorem toHexCore_step (fuel n : ℕ) (ds : List Char) (hf : 1 ≤ fuel) (hn : 16 ≤ n) :
    toHexCore fuel n ds = toHexCore (fuel - 1) (n / 16) (Nat.digitChar (n % 16) :: ds) := by
  obtain ⟨f, rfl⟩ : ∃ f, fuel = f + 1 := ⟨fuel - 1, by omega⟩
  simp only [toHexCore, Nat.add_sub_cancel]
  rw [if_neg (by omega)]

/-- The final step of the base-16 printer. -/
theorem toHexCore_last (fuel n : ℕ) (ds : List Char) (hf : 1 ≤ fuel) (hn : n < 16) :
    toHexCore fuel n ds = Nat.digitChar n :: ds := by
  obtain ⟨f, rfl⟩ : ∃ f, fuel = f + 1 := ⟨fuel - 1, by omega⟩
  simp only [toHexCore]
  rw [if_pos hn, Nat.mod_eq_of_lt hn]

/-- The hex expansion of the seven-digit numbers produced inside rgbToHex. -/
theorem natToHex_seven (a b c d e f : ℕ)
    (ha : a < 16) (hb : b < 16) (hc : c < 16) (hd : d < 16) (he : e < 16) (hf : f < 16) :
    natToHex (16777216 + a * 1048576 + b * 65536 + c * 4096 + d * 256 + e * 16 + f) =
      ['1', Nat.digitChar a, Nat.digitChar b, Nat.digitChar c,
       Nat.digitChar d, Nat.digitChar e, Nat.digitChar f] := by
  set n := 16777216 + a * 1048576 + b * 65536 + c * 4096 + d * 256 + e * 16 + f with hn
  rw [natToHex]
  rw [toHexCore_step (n + 1) n [] (by omega) (by omega)]
  have e1 : n % 16 = f := by omega
  have d1 : n / 16 = 1048576 + a * 65536 + b * 4096 + c * 256 + d * 16 + e := by omega
  rw [e1, d1]
  rw [toHexCore_step _ _ _ (by omega) (by omega)]
  have e2 : (1048576 + a * 65536 + b * 4096 + c * 256 + d * 16 + e) % 16 = e := by omega
  have d2 : (1048576 + a * 65536 + b * 4096 + c * 256 + d * 16 + e) / 16 =
      65536 + a * 4096 + b * 256 + c * 16 + d := by omega
  rw [e2, d2]
  rw [toHexCore_step _ _ _ (by omega) (by omega)]
  have e3 : (65536 + a * 4096 + b * 256 + c * 16 + d) % 16 = d := by omega
  have d3 : (65536 + a * 4096 + b * 256 + c * 16 + d) / 16 = 4096 + a * 256 + b * 16 + c := by
    omega
  rw [e3, d3]
  rw [toHexCore_step _ _ _ (by omega) (by omega)]
  have e4 : (4096 + a * 256 + b * 16 + c) % 16 = c := by omega
  have d4 : (4096 + a * 256 + b * 16 + c) / 16 = 256 + a * 16 + b := by omega
  rw [e4, d4]
  rw [toHexCore_step _ _ _ (by omega) (by omega)]
  have e5 : (256 + a * 16 + b) % 16 = b := by omega
  have d5 : (256 + a * 16 + b) / 16 = 16 + a := by omega
  rw [e5, d5]
  rw [toHexCore_step _ _ _ (by omega) (by omega)]
  have e6 : (16 + a) % 16 = a := by omega
  have d6 : (16 + a) / 16 = 1 := by omega
  rw [e6, d6]
  rw [toHexCore_last _ _ _ (by omega) (by omega)]
  rfl

/-- Round trip: re-parsing a canonically printed color recovers its channels. -/
theorem hexToRgb_rgbToHex (r g b : ℤ)
    (hr0 : 0 ≤ r) (hr1 : r ≤ 255) (hg0 : 0 ≤ g) (hg1 : g ≤ 255)
    (hb0 : 0 ≤ b) (hb1 : b ≤ 255) :
    hexToRgb (rgbToHex r g b) = ⟨r, g, b⟩ := by
  rw [rgbToHex]
  have hN : (2 ^ 24 + r * 2 ^ 16 + g * 2 ^ 8 + b).toNat =
      16777216 + (r.toNat / 16) * 1048576 + (r.toNat % 16) * 65536 +
        (g.toNat / 16) * 4096 + (g.toNat % 16) * 256 +
        (b.toNat / 16) * 16 + b.toNat % 16 := by
    have : (2 : ℤ) ^ 24 = 16777216 := by norm_num
    have : (2 : ℤ) ^ 16 = 65536 := by norm_num
    have : (2 : ℤ) ^ 8 = 256 := by norm_num
    omega
  rw [hN, natToHex_seven _ _ _ _ _ _ (by omega) (by omega) (by omega) (by omega)
    (by omega) (by omega)]
  rw [hexToRgb, hexMatch]
  have hdata : ("#" ++ String.mk (List.tail
      ['1', Nat.digitChar (r.toNat / 16), Nat.digitChar (r.toNat % 16),
       Nat.digitChar (g.toNat / 16), Nat.digitChar (g.toNat % 16),
       Nat.digitChar (b.toNat / 16), Nat.digitChar (b.toNat % 16)])).data =
      '#' :: [Nat.digitChar (r.toNat / 16), Nat.digitChar (r.toNat % 16),
       Nat.digitChar (g.toNat / 16), Nat.digitChar (g.toNat % 16),
       Nat.digitChar (b.toNat / 16), Nat.digitChar (b.toNat % 16)] := by
    rw [String.data_append]
    rfl
  rw [hdata]
  simp only [stripHash]
  simp only [parseHexPair,
    hexDigitVal_digitChar (r.toNat / 16) (by omega),
    hexDigitVal_digitChar (r.toNat % 16) (by omega),
    hexDigitVal_digitChar (g.toNat / 16) (by omega),
    hexDigitVal_digitChar (g.toNat % 16) (by omega),
    hexDigitVal_digitChar (b.toNat / 16) (by omega),
    hexDigitVal_digitChar (b.toNat % 16) (by omega)]
  have hr' : 16 * ((r.toNat / 16 : ℕ) : ℤ) + ((r.toNat % 16 : ℕ) : ℤ) = r := by omega
  have hg' : 16 * ((g.toNat / 16 : ℕ) : ℤ) + ((g.toNat % 16 : ℕ) : ℤ) = g := by omega
  have hb' : 16 * ((b.toNat / 16 : ℕ) : ℤ) + ((b.toNat % 16 : ℕ) : ℤ) = b := by omega
  rw [hr', hg', hb']

/-- C9 counterexample: on the valid (case-insensitively matched) color
"#FF0000", interpolateColor re-encodes through rgbToHex, which prints
lowercase hex, so interpolate(A, A, 0) is "#ff0000", not the input string
"#FF0000". -/
theorem interpolateColor_uppercase_not_identity :
    interpolateColor "#FF0000" "#FF0000" 0 ≠ "#FF0000" := by
  have h1 : hexToRgb "#FF0000" = ⟨255, 0, 0⟩ := by decide
  have h2 : interpolateColor "#FF0000" "#FF0000" 0 = rgbToHex 255 0 0 := by
    simp only [interpolateColor, h1]
    norm_num [jsRound]
  rw [h2]
  decide

/-- C9 amended: the endpoint identities hold for colors written in the
canonical form produced by rgbToHex (a hash sign followed by six lowercase
hex digits): for channels in [0, 255], interpolate(A, A, t) = A for every t,
interpolate(A, B, 0) = A, and interpolate(A, B, 1) = B.  (For other valid
spellings - uppercase digits or a missing hash sign - the result is the
canonical respelling of the right endpoint rather than the input string.) -/
theorem interpolateColor_endpoints_canonical (r1 g1 b1 r2 g2 b2 : ℤ)
    (h1 : 0 ≤ r1 ∧ r1 ≤ 255) (h2 : 0 ≤ g1 ∧ g1 ≤ 255) (h3 : 0 ≤ b1 ∧ b1 ≤ 255)
    (h4 : 0 ≤ r2 ∧ r2 ≤ 255) (h5 : 0 ≤ g2 ∧ g2 ≤ 255) (h6 : 0 ≤ b2 ∧ b2 ≤ 255)
    (t : ℚ) :
    interpolateColor (rgbToHex r1 g1 b1) (rgbToHex r1 g1 b1) t = rgbToHex r1 g1 b1 ∧
    interpolateColor (rgbToHex r1 g1 b1) (rgbToHex r2 g2 b2) 0 = rgbToHex r1 g1 b1 ∧
    interpolateColor (rgbToHex r1 g1 b1) (rgbToHex r2 g2 b2) 1 = rgbToHex r2 g2 b2 := by
  have hA := hexToRgb_rgbToHex r1 g1 b1 h1.1 h1.2 h2.1 h2.2 h3.1 h3.2
  have hB := hexToRgb_rgbToHex r2 g2 b2 h4.1 h4.2 h5.1 h5.2 h6.1 h6.2
  refine ⟨?_, ?_, ?_⟩
  · simp only [interpolateColor, hA]
    have hz : ∀ z : ℤ, (z : ℚ) + ((z : ℚ) - (z : ℚ)) * t = ((z : ℚ)) := by
      intro z; ring
    rw [hz, hz, hz, jsRound_int, jsRound_int, jsRound_int]
  · simp only [interpolateColor, hA, hB]
    have hz : ∀ z w : ℤ, (z : ℚ) + ((w : ℚ) - (z : ℚ)) * 0 = ((z : ℚ)) := by
      intro z w; ring
    rw [hz, hz, hz, jsRound_int, jsRound_int, jsRound_int]
  · simp only [interpolateColor, hA, hB]
    have hz : ∀ z w : ℤ, (z : ℚ) + ((w : ℚ) - (z : ℚ)) * 1 = ((w : ℚ)) := by
      intro z w; ring
    rw [hz, hz, hz, jsRound_int, jsRound_int, jsRound_int]

/-- Witness for the amended C9 at A = rgbToHex 255 0 0 = "#ff0000",
B = rgbToHex 0 0 255 = "#0000ff", t = 1/2. -/
theorem interpolateColor_endpoints_canonical_witness :
    interpolateColor (rgbToHex 255 0 0) (rgbToHex 255 0 0) (1 / 2) = rgbToHex 255 0 0 ∧
    interpolateColor (rgbToHex 255 0 0) (rgbToHex 0 0 255) 0 = rgbToHex 255 0 0 ∧
    interpolateColor (rgbToHex 255 0 0) (rgbToHex 0 0 255) 1 = rgbToHex 0 0 255 :=
  interpolateColor_endpoints_canonical 255 0 0 0 0 255
    (by norm_num) (by norm_num) (by norm_num) (by norm_num) (by norm_num) (by norm_num)
    (1 / 2)

theorem hexMatch_isSome_imp (s : String) (v : ℤ × ℤ × ℤ) (h : hexMatch s = some v) :
    matchesHexColor s = true := by
  rw [hexMatch] at h
  rw [matchesHexColor]
  split at h
  next c1 c2 c3 c4 c5 c6 heq =>
    rw [heq]
    split at h
    next r g b hp1 hp2 hp3 =>
      have d1 := parseHexPair_some c1 c2 r hp1
      have d2 := parseHexPair_some c3 c4 g hp2
      have d3 := parseHexPair_some c5 c6 b hp3
      simp [isHexDigitChar_eq_isSome, d1.1, d1.2, d2.1, d2.2, d3.1, d3.2]
    next => simp_all
  next => simp_all

/-- C10: any string rejected by the hexToRgb regex parses to black
{r = 0, g = 0, b = 0} instead of failing, and interpolateColor therefore
treats a malformed first argument exactly like the color "#000000" (so it is
total on arbitrary string inputs). -/
theorem hexToRgb_malformed_black (s : String) (h : matchesHexColor s = false) :
    hexToRgb s = ⟨0, 0, 0⟩ ∧
    ∀ (c2 : String) (t : ℚ), interpolateColor s c2 t = interpolateColor "#000000" c2 t := by
  have hnone : hexMatch s = none := by
    rcases hm : hexMatch s with _ | v
    · rfl
    · exact absurd (hexMatch_isSome_imp s v hm) (by simp [h])
  have hblack : hexToRgb s = ⟨0, 0, 0⟩ := by rw [hexToRgb, hnone]
  refine ⟨hblack, ?_⟩
  intro c2 t
  have h000 : hexToRgb "#000000" = ⟨0, 0, 0⟩ := by decide
  simp only [interpolateColor, hblack, h000]

/-- Witness for C10 on the malformed input "zzz". -/
theorem hexToRgb_malformed_black_witness :
    hexToRgb "zzz" = ⟨0, 0, 0⟩ ∧
    interpolateColor "zzz" "#abcdef" (1 / 2) = interpolateColor "#000000" "#abcdef" (1 / 2) :=
  ⟨(hexToRgb_malformed_black "zzz" (by decide)).1,
   (hexToRgb_malformed_black "zzz" (by decide)).2 "#abcdef" (1 / 2)⟩

/-- Canvas width from warp.js. -/
def CANVAS_WIDTH : ℝ := 800

/-- Canvas height from warp.js. -/
def CANVAS_HEIGHT : ℝ := 800

/-- applyDistortionToPoint from warp.js: the per-point sinusoidal warp
displacement. -/
noncomputable def applyDistortionToPoint (x y chaosX chaosY rand1 rand2 : ℝ) : ℝ × ℝ :=
  let distanceFromYCenter := CANVAS_HEIGHT / 2 - y
  let distanceFromXCenter := CANVAS_WIDTH / 2 - x
  let chaosFactorX := map distanceFromXCenter 400 (-400) 1 chaosX
  let chaosFactorY := map distanceFromYCenter 400 (-400) 10 chaosY
  (x - chaosFactorX * Real.sin (y / rand1), y - chaosFactorY * Real.sin (x / rand2))

/-- The subset of SVG path commands appearing in SHAPE_PATHS and in the paths
the generator itself produces: absolute moves, lines, horizontal and vertical
lines, cubic curves, and close. -/
inductive PathCmd where
  | M (x y : ℝ)
  | L (x y : ℝ)
  | H (x : ℝ)
  | V (y : ℝ)
  | C (x1 y1 x2 y2 x y : ℝ)
  | Z

/-- transformPathData from warp.js: only absolute M and L commands have their
leading coordinate pair displaced; Z is kept; every other command (H, V, C,
S, Q, T, A fall into the final else) is copied to the output unchanged. -/
noncomputable def transformPathData (d : List PathCmd) (chaosX chaosY rand1 rand2 : ℝ) :
    List PathCmd :=
  d.map fun cmd =>
    match cmd with
    | .M x y =>
      let p := applyDistortionToPoint x y chaosX chaosY rand1 rand2
      .M p.1 p.2
    | .L x y =>
      let p := applyDistortionToPoint x y chaosX chaosY rand1 rand2
      .L p.1 p.2
    | other => other

/-- The 64 circle sample points of distortCircle in warp.js, each displaced. -/
noncomputable def distortCircle (cx cy r chaosX chaosY rand1 rand2 : ℝ) : List (ℝ × ℝ) :=
  (List.range 64).map fun i =>
    let angle := ((i : ℝ) / 64) * Real.pi * 2
    let x := cx + Real.cos angle * r
    let y := cy + Real.sin angle * r
    applyDistortionToPoint x y chaosX chaosY rand1 rand2

/-- The 4 corner points of distortRect in warp.js, each displaced. -/
noncomputable def distortRect (x y w h chaosX chaosY rand1 rand2 : ℝ) : List (ℝ × ℝ) :=
  [(x, y), (x + w, y), (x + w, y + h), (x, y + h)].map fun c =>
    applyDistortionToPoint c.1 c.2 chaosX chaosY rand1 rand2

/-- SHAPE_PATHS.hexagon from shapes.js, parsed into commands: note the two
V (vertical line) commands. -/
def hexagonPath : List PathCmd :=
  [.M 400 250, .L 529.904 325, .V 475, .L 400 550, .L 270.096 475, .V 325,
   .L 400 250, .Z]

/-- SHAPE_PATHS.triangle from shapes.js, parsed into commands: note the three
C (cubic curve) commands and one H command. -/
def trianglePath : List PathCmd :=
  [.M 392.83 239.489,
   .C 395.767 233.553 404.233 233.553 407.17 239.489,
   .L 524.189 475.952,
   .C 526.82 481.269 522.952 487.5 517.019 487.5,
   .H 282.981,
   .C 277.048 487.5 273.18 481.269 275.811 475.952,
   .L 392.83 239.489,
   .Z]

/-- The sine of a nonzero rational angle is nonzero, since pi is irrational. -/
theorem sin_rat_ne_zero (q : ℚ) (hq : q ≠ 0) : Real.sin (q : ℝ) ≠ 0 := by
  intro h0
  rw [Real.sin_eq_zero_iff] at h0
  obtain ⟨n, hn⟩ := h0
  rcases eq_or_ne n 0 with rfl | hn0
  · rw [Int.cast_zero, zero_mul] at hn
    exact hq (by exact_mod_cast hn.symm)
  · have hne : ((n : ℝ)) ≠ 0 := by exact_mod_cast hn0
    have hπ : Real.pi = ((q : ℝ)) / ((n : ℝ)) := by
      rw [eq_div_iff hne, mul_comm]
      exact hn
    exact irrational_pi ⟨q / (n : ℚ), by push_cast; rw [hπ]⟩

/-- C1: the warp displacement of a point (x, y) is exactly
x' = x - map(400 - x, 400, -400, 1, chaosX) * sin(y / r1) and
y' = y - map(400 - y, 400, -400, 10, chaosY) * sin(x / r2), with
map(v, a, b, c, d) = c + (d - c) * ((v - a) / (b - a)) and the canvas halves
equal to 400; and the displacement of equal inputs is equal (the per-point
formula hides no randomness). -/
theorem applyDistortionToPoint_spec :
    (∀ x y chaosX chaosY r1 r2 : ℝ,
      applyDistortionToPoint x y chaosX chaosY r1 r2 =
        (x - (1 + (chaosX - 1) * (((400 - x) - 400) / (-400 - 400))) * Real.sin (y / r1),
         y - (10 + (chaosY - 10) * (((400 - y) - 400) / (-400 - 400))) * Real.sin (x / r2))) ∧
    (∀ x y x' y' chaosX chaosY r1 r2 : ℝ, x = x' → y = y' →
      applyDistortionToPoint x y chaosX chaosY r1 r2 =
        applyDistortionToPoint x' y' chaosX chaosY r1 r2) := by
  constructor
  · intro x y chaosX chaosY r1 r2
    simp only [applyDistortionToPoint, map, CANVAS_WIDTH, CANVAS_HEIGHT]
    norm_num
  · intro x y x' y' chaosX chaosY r1 r2 hx hy
    rw [hx, hy]

/-- C3 counterexample: on the hexagon path, the V command at index 2 survives
the warp transform unchanged (transformPathData only displaces M and L
commands), even though the warp displacement at the vertex (529.904, 475) it
encodes is nonzero at chaosX = chaosY = 50, r1 = r2 = 24. -/
theorem transformPathData_skips_V :
    (transformPathData hexagonPath 50 50 24 24)[2]? = some (.V 475) ∧
    (applyDistortionToPoint 529.904 475 50 50 24 24).2 ≠ 475 := by
  constructor
  · rfl
  · have hsin : Real.sin ((529.904 : ℝ) / 24) ≠ 0 := by
      have hq : ((529.904 : ℝ)) / 24 = ((529904 / 24000 : ℚ) : ℝ) := by norm_num
      rw [hq]
      exact sin_rat_ne_zero _ (by norm_num)
    simp only [applyDistortionToPoint, map, CANVAS_WIDTH, CANVAS_HEIGHT]
    intro hc
    have hprod : ((10 : ℝ) + (50 - 10) * ((800 / 2 - 475 - 400) / (-400 - 400))) *
        Real.sin (529.904 / 24) = 0 := by linarith
    have hfa : ((10 : ℝ) + (50 - 10) * ((800 / 2 - 475 - 400) / (-400 - 400))) ≠ 0 := by
      norm_num
    exact mul_ne_zero hfa hsin hprod

/-- C3 amended: the warp displaces the coordinate pair of every absolute M and
L path command, the 64 sample points of every circle and the 4 corners of
every rect, but coordinates carried by H, V and C commands pass through the
path transform unchanged - in particular the hexagon's V coordinates and the
triangle's C control points are never displaced. -/
theorem transformPathData_ML_only (d : List PathCmd) (cX cY r1 r2 : ℝ) :
    (∀ (i : ℕ) (x y : ℝ), d[i]? = some (PathCmd.M x y) →
      (transformPathData d cX cY r1 r2)[i]? =
        some (PathCmd.M (applyDistortionToPoint x y cX cY r1 r2).1
          (applyDistortionToPoint x y cX cY r1 r2).2)) ∧
    (∀ (i : ℕ) (x y : ℝ), d[i]? = some (PathCmd.L x y) →
      (transformPathData d cX cY r1 r2)[i]? =
        some (PathCmd.L (applyDistortionToPoint x y cX cY r1 r2).1
          (applyDistortionToPoint x y cX cY r1 r2).2)) ∧
    (∀ (i : ℕ) (y : ℝ), d[i]? = some (PathCmd.V y) →
      (transformPathData d cX cY r1 r2)[i]? = some (PathCmd.V y)) ∧
    (∀ (i : ℕ) (x : ℝ), d[i]? = some (PathCmd.H x) →
      (transformPathData d cX cY r1 r2)[i]? = some (PathCmd.H x)) ∧
    (∀ (i : ℕ) (a b c x y z : ℝ), d[i]? = some (PathCmd.C a b c x y z) →
      (transformPathData d cX cY r1 r2)[i]? = some (PathCmd.C a b c x y z)) ∧
    (∀ cx cy r, distortCircle cx cy r cX cY r1 r2 =
      (List.range 64).map fun i =>
        applyDistortionToPoint (cx + Real.cos (((i : ℝ) / 64) * Real.pi * 2) * r)
          (cy + Real.sin (((i : ℝ) / 64) * Real.pi * 2) * r) cX cY r1 r2) ∧
    (∀ x y w h, distortRect x y w h cX cY r1 r2 =
      [applyDistortionToPoint x y cX cY r1 r2,
       applyDistortionToPoint (x + w) y cX cY r1 r2,
       applyDistortionToPoint (x + w) (y + h) cX cY r1 r2,
       applyDistortionToPoint x (y + h) cX cY r1 r2]) := by
  refine ⟨?_, ?_, ?_, ?_, ?_, ?_, ?_⟩
  · intro i x y h
    rw [transformPathData, List.getElem?_map, h]
    rfl
  · intro i x y h
    rw [transformPathData, List.getElem?_map, h]
    rfl
  · intro i y h
    rw [transformPathData, List.getElem?_map, h]
    rfl
  · intro i x h
    rw [transformPathData, List.getElem?_map, h]
    rfl
  · intro i a b c x y z h
    rw [transformPathData, List.getElem?_map, h]
    rfl
  · intro cx cy r
    rfl
  · intro x y w h
    rfl

/-- Witness for the amended C3: on the hexagon the M command at index 0 is
displaced while the V command at index 2 is copied; on the triangle the C
command at index 1 is copied. -/
theorem transformPathData_ML_only_witness :
    (transformPathData hexagonPath 50 50 24 24)[0]? =
      some (.M (applyDistortionToPoint 400 250 50 50 24 24).1
        (applyDistortionToPoint 400 250 50 50 24 24).2) ∧
    (transformPathData hexagonPath 50 50 24 24)[2]? = some (.V 475) ∧
    (transformPathData trianglePath 50 50 24 24)[1]? =
      some (.C 395.767 233.553 404.233 233.553 407.17 239.489) :=
  ⟨(transformPathData_ML_only hexagonPath 50 50 24 24).1 0 400 250 rfl,
   (transformPathData_ML_only hexagonPath 50 50 24 24).2.2.1 2 475 rfl,
   (transformPathData_ML_only trianglePath 50 50 24 24).2.2.2.2.1 1
     395.767 233.553 404.233 233.553 407.17 239.489 rfl⟩

/-- One SVG shape as visited by applyWarpDistortion's forEach: a circle, a
rect, or a path. -/
inductive SvgShape where
  | circle (cx cy r : ℝ)
  | rect (x y w h : ℝ)
  | path (d : List PathCmd)

/-- replaceShapeWithPath in warp.js: an M to the first point, an L to each
subsequent point, then Z. -/
def pointsToPathCmds (pts : List (ℝ × ℝ)) : List PathCmd :=
  match pts with
  | [] => [.Z]
  | p :: rest => .M p.1 p.2 :: (rest.map (fun q => PathCmd.L q.1 q.2) ++ [.Z])

/-- The dispatch in applyWarpDistortion's forEach body: circles and rects are
resampled into distorted polygons replacing the original element, paths are
rewritten command by command; every branch receives the same rand1, rand2. -/
noncomputable def distortShape (chaosX chaosY rand1 rand2 : ℝ) : SvgShape → SvgShape
  | .circle cx cy r =>
      .path (pointsToPathCmds (distortCircle cx cy r chaosX chaosY rand1 rand2))
  | .rect x y w h =>
      .path (pointsToPathCmds (distortRect x y w h chaosX chaosY rand1 rand2))
  | .path d => .path (transformPathData d chaosX chaosY rand1 rand2)

/-- applyWarpDistortion from warp.js, with its two Math.random() calls made
explicit as rational arguments u1, u2 in [0,1): rand1 and rand2 are computed
once, before any shape is visited, and the same pair is passed to the
distortion of every shape. -/
noncomputable def applyWarpDistortion (shapes : List SvgShape) (chaosX chaosY : ℝ)
    (u1 u2 : ℚ) : List SvgShape :=
  let rand1 := jsRound (random 24 64 false u1)
  let rand2 := jsRound (random 24 64 false u2)
  shapes.map (distortShape chaosX chaosY (rand1 : ℝ) (rand2 : ℝ))

/-- C4: for uniform draws u1, u2 in [0,1), the two sinusoid divisors are
integers in [24, 64), drawn once per warp call, and the same pair is used for
the distortion of every shape of the call, whatever the shape list is. -/
theorem applyWarpDistortion_shared_divisors (u1 u2 : ℚ)
    (h1 : 0 ≤ u1) (h1' : u1 < 1) (h2 : 0 ≤ u2) (h2' : u2 < 1) :
    ∃ r1 r2 : ℤ, 24 ≤ r1 ∧ r1 < 64 ∧ 24 ≤ r2 ∧ r2 < 64 ∧
      ∀ (shapes : List SvgShape) (chaosX chaosY : ℝ),
        applyWarpDistortion shapes chaosX chaosY u1 u2 =
          shapes.map (distortShape chaosX chaosY ((r1 : ℤ) : ℝ) ((r2 : ℤ) : ℝ)) := by
  have key : ∀ u : ℚ, 0 ≤ u → u < 1 →
      24 ≤ jsRound (random 24 64 false u) ∧ jsRound (random 24 64 false u) < 64 := by
    intro u hu hu'
    have hrand : random 24 64 false u = ((⌊u * (64 - 24) + 24⌋ : ℤ) : ℚ) := by
      rw [random]
      simp
    rw [hrand, jsRound_int]
    constructor
    · apply Int.le_floor.mpr
      push_cast
      linarith
    · apply Int.floor_lt.mpr
      push_cast
      linarith
  refine ⟨jsRound (random 24 64 false u1), jsRound (random 24 64 false u2),
    (key u1 h1 h1').1, (key u1 h1 h1').2, (key u2 h2 h2').1, (key u2 h2 h2').2, ?_⟩
  intro shapes chaosX chaosY
  rfl

/-- Witness for C4 at u1 = u2 = 1/2. -/
theorem applyWarpDistortion_shared_divisors_witness :
    ∃ r1 r2 : ℤ, 24 ≤ r1 ∧ r1 < 64 ∧ 24 ≤ r2 ∧ r2 < 64 ∧
      ∀ (shapes : List SvgShape) (chaosX chaosY : ℝ),
        applyWarpDistortion shapes chaosX chaosY (1 / 2) (1 / 2) =
          shapes.map (distortShape chaosX chaosY ((r1 : ℤ) : ℝ) ((r2 : ℤ) : ℝ)) :=
  applyWarpDistortion_shared_divisors (1 / 2) (1 / 2)
    (by norm_num) (by norm_num) (by norm_num) (by norm_num)

section ClipResolver

variable {α : Type} [LinearOrderedField α]

/-- Axis-aligned bounding box ((minX, minY), (maxX, maxY)) of a point list,
the getBBox of a rendered boundary; for an empty boundary it degenerates to
the origin. -/
def getBBox (pts : List (α × α)) : (α × α) × (α × α) :=
  match pts with
  | [] => ((0, 0), (0, 0))
  | p :: rest =>
    ((rest.foldl (fun m q => Min.min m q.1) p.1,
      rest.foldl (fun m q => Min.min m q.2) p.2),
     (rest.foldl (fun m q => Max.max m q.1) p.1,
      rest.foldl (fun m q => Max.max m q.2) p.2))

/-- Center of a boundary's bounding box, as computed in
reapplyClipsAfterDistortion: bbox.x + bbox.width / 2 and
bbox.y + bbox.height / 2. -/
def bboxCenter (pts : List (α × α)) : α × α :=
  let bb := getBBox pts
  (bb.1.1 + (bb.2.1 - bb.1.1) / 2, bb.1.2 + (bb.2.2 - bb.1.2) / 2)

/-- The transform translate(c) scale(factor) translate(-c) applied to a cloned
boundary: every point scaled by the factor about the point c. -/
def scaleAbout (c : α × α) (factor : α) (pts : List (α × α)) : List (α × α) :=
  pts.map fun p => (c.1 + factor * (p.1 - c.1), c.2 + factor * (p.2 - c.2))

/-- A clipPath definition appended to defs: its id and its geometry. -/
structure ClipDef (α : Type) where
  cid : ℕ
  geom : List (α × α)

/-- A node of the rebuilt scene: a bare shape, or a group carrying a
clip-path reference and children. -/
inductive SceneNode (α : Type) where
  | shapeNode (geom : List (α × α))
  | clipGroup (cid : ℕ) (children : List (SceneNode α))

/-- The id clip-global-largest, kept apart from the per-layer clip-N ids
(layer numbers are at least 2). -/
def globalClipId : ℕ := 0

/-- reapplyClipsAfterDistortion from shapes.js, applied to the ordered list
of post-warp shape boundaries (outermost first, the document order returned
by querySelectorAll) and to the parallel list of shapeMetadata clip ids.
It returns the clipPath definitions appended to defs - the global one built
from the outermost boundary plus one per remaining layer built from
allShapes[i] under metaIds[i] - and the rebuilt group structure: a global
clip group holding the outermost shape bare, then one individual group per
later shape, clipped by the id of the shape before it. -/
def reapplyClipsAfterDistortion (allShapes : List (List (α × α))) (metaIds : List ℕ) :
    List (ClipDef α) × Option (SceneNode α) :=
  match allShapes with
  | [] => ([], none)
  | largestShape :: _ =>
    let globalClip : ClipDef α :=
      ⟨globalClipId, scaleAbout (bboxCenter largestShape) (9 / 10) largestShape⟩
    let individualClips : List (ClipDef α) :=
      (List.range (allShapes.length - 1)).map fun i =>
        ⟨metaIds.getD i 0,
         scaleAbout (bboxCenter (allShapes.getD i [])) (9 / 10) (allShapes.getD i [])⟩
    let children : List (SceneNode α) :=
      (List.range' 1 (allShapes.length - 1)).map fun i =>
        SceneNode.clipGroup (metaIds.getD (i - 1) 0)
          [SceneNode.shapeNode (allShapes.getD i [])]
    (globalClip :: individualClips,
     some (SceneNode.clipGroup globalClipId
       (SceneNode.shapeNode largestShape :: children)))

/-- C2: on the post-warp boundaries, handed over outermost first, the resolver
derives a global clip boundary as the outermost layer's geometry scaled 0.90
about its own bounding-box center; the rebuilt scene is a single globally
clipped group whose first child is the outermost shape carrying no clip of
its own, and every other layer k sits in its own sub-group clipped by the id
metaIds[k-1] of its immediate outer neighbor, whose clipPath definition
carries that neighbor's post-warp geometry scaled 0.90 about the neighbor's
own center. -/
theorem reapplyClips_structure (s0 : List (α × α)) (rest : List (List (α × α)))
    (metaIds : List ℕ) :
    ((reapplyClipsAfterDistortion (s0 :: rest) metaIds).1)[0]? =
      some ⟨globalClipId, scaleAbout (bboxCenter s0) (9 / 10) s0⟩ ∧
    (∃ children : List (SceneNode α),
      (reapplyClipsAfterDistortion (s0 :: rest) metaIds).2 =
        some (SceneNode.clipGroup globalClipId (SceneNode.shapeNode s0 :: children)) ∧
      children.length = rest.length ∧
      ∀ k : ℕ, k < rest.length →
        children[k]? = some (SceneNode.clipGroup (metaIds.getD k 0)
          [SceneNode.shapeNode ((s0 :: rest).getD (k + 1) [])]) ∧
        ((reapplyClipsAfterDistortion (s0 :: rest) metaIds).1)[k + 1]? =
          some ⟨metaIds.getD k 0,
            scaleAbout (bboxCenter ((s0 :: rest).getD k [])) (9 / 10)
              ((s0 :: rest).getD k [])⟩) := by
  constructor
  · simp [reapplyClipsAfterDistortion]
  · simp only [reapplyClipsAfterDistortion]
    refine ⟨_, rfl, ?_, ?_⟩
    · simp [List.length_range']
    · intro k hk
      have hk' : k < (s0 :: rest).length - 1 := by
        simp only [List.length_cons]
        omega
      constructor
      · rw [List.getElem?_map, List.getElem?_range' 1 1 hk']
        have h1 : 1 + 1 * k - 1 = k := by omega
        have h2 : 1 + 1 * k = k + 1 := by omega
        simp only [Option.map_some', h1, h2, Nat.add_sub_cancel]
      · rw [List.getElem?_cons_succ, List.getElem?_map, List.getElem?_range hk']
        simp only [Option.map_some']

end ClipResolver

/-- Witness for C2 on two concrete post-warp layers over the rationals. -/
theorem reapplyClips_structure_witness :
    ((reapplyClipsAfterDistortion ([[((0 : ℚ), 0)], [(1, 1)]]) [7, 9]).1)[0]? =
      some ⟨globalClipId, scaleAbout (bboxCenter [((0 : ℚ), 0)]) (9 / 10) [((0 : ℚ), 0)]⟩ ∧
    (∃ children : List (SceneNode ℚ),
      (reapplyClipsAfterDistortion ([[((0 : ℚ), 0)], [(1, 1)]]) [7, 9]).2 =
        some (SceneNode.clipGroup globalClipId
          (SceneNode.shapeNode [((0 : ℚ), 0)] :: children)) ∧
      children.length = 1 ∧
      ∀ k : ℕ, k < 1 →
        children[k]? = some (SceneNode.clipGroup ([7, 9].getD k 0)
          [SceneNode.shapeNode (([[((0 : ℚ), 0)], [(1, 1)]]).getD (k + 1) [])]) ∧
        ((reapplyClipsAfterDistortion ([[((0 : ℚ), 0)], [(1, 1)]]) [7, 9]).1)[k + 1]? =
          some ⟨[7, 9].getD k 0,
            scaleAbout (bboxCenter (([[((0 : ℚ), 0)], [(1, 1)]]).getD k [])) (9 / 10)
              (([[((0 : ℚ), 0)], [(1, 1)]]).getD k [])⟩) :=
  reapplyClips_structure [((0 : ℚ), 0)] [[(1, 1)]] [7, 9]

/-- The seeded PRNG of the SimplexNoise constructor: x = sin(seed) * 10000,
returning x - floor(x); the instance field increments by one per call, so the
i-th draw evaluates at seed + i. -/
noncomputable def simplexRandom (seed : ℝ) : ℝ :=
  let x := Real.sin seed * 10000
  x - ⌊x⌋

/-- The base permutation table of the SimplexNoise constructor:
p[i] = floor(random() * 256), the i-th draw of the seeded PRNG. -/
noncomputable def permBase (seed : ℝ) (i : ℕ) : ℤ :=
  ⌊simplexRandom (seed + i) * 256⌋

/-- The doubled lookup table of the SimplexNoise constructor:
perm[i] = p[i & 255]. -/
noncomputable def permOfSeed (seed : ℝ) (i : ℕ) : ℕ :=
  (permBase seed (i % 256)).toNat

/-- The twelve gradient vectors grad3, restricted to the two components the
2D dot product reads. -/
def grad3 : List (ℤ × ℤ) :=
  [(1, 1), (-1, 1), (1, -1), (-1, -1), (1, 0), (-1, 0), (1, 0), (-1, 0),
   (0, 1), (0, -1), (0, 1), (0, -1)]

/-- SimplexNoise.noise from the texture synthesizer, over an arbitrary doubled
permutation table pt (the seeded constructor yields permOfSeed seed): skew the
input onto the simplex grid, pick the simplex corner offsets, hash each corner
to one of the twelve gradients, and sum the three falloff-weighted gradient
dot products, scaled by 70. -/
noncomputable def noise (pt : ℕ → ℕ) (xin yin : ℝ) : ℝ :=
  let F2 : ℝ := 0.5 * (Real.sqrt 3 - 1)
  let G2 : ℝ := (3 - Real.sqrt 3) / 6
  let s := (xin + yin) * F2
  let i : ℤ := ⌊xin + s⌋
  let j : ℤ := ⌊yin + s⌋
  let t := ((i : ℝ) + (j : ℝ)) * G2
  let X0 := (i : ℝ) - t
  let Y0 := (j : ℝ) - t
  let x0 := xin - X0
  let y0 := yin - Y0
  let i1 : ℕ := if x0 > y0 then 1 else 0
  let j1 : ℕ := if x0 > y0 then 0 else 1
  let x1 := x0 - (i1 : ℝ) + G2
  let y1 := y0 - (j1 : ℝ) + G2
  let x2 := x0 - 1 + 2 * G2
  let y2 := y0 - 1 + 2 * G2
  let ii : ℕ := (i % 256).toNat
  let jj : ℕ := (j % 256).toNat
  let gi0 := pt (ii + pt jj) % 12
  let gi1 := pt (ii + i1 + pt (jj + j1)) % 12
  let gi2 := pt (ii + 1 + pt (jj + 1)) % 12
  let g0 := grad3.getD gi0 (0, 0)
  let g1 := grad3.getD gi1 (0, 0)
  let g2 := grad3.getD gi2 (0, 0)
  let t0 := 0.5 - x0 * x0 - y0 * y0
  let n0 := if t0 < 0 then (0 : ℝ) else
    (t0 * t0) * (t0 * t0) * ((g0.1 : ℝ) * x0 + (g0.2 : ℝ) * y0)
  let t1 := 0.5 - x1 * x1 - y1 * y1
  let n1 := if t1 < 0 then (0 : ℝ) else
    (t1 * t1) * (t1 * t1) * ((g1.1 : ℝ) * x1 + (g1.2 : ℝ) * y1)
  let t2 := 0.5 - x2 * x2 - y2 * y2
  let n2 := if t2 < 0 then (0 : ℝ) else
    (t2 * t2) * (t2 * t2) * ((g2.1 : ℝ) * x2 + (g2.2 : ℝ) * y2)
  70.0 * (n0 + n1 + n2)

/-- One pass of the octave loop body in createNoisePattern, on the state
(noiseValue, amplitude, frequency, maxValue): sample at (x/scale, y/scale)
times the frequency, accumulate with the current amplitude, add the amplitude
to maxValue, then halve the amplitude and double the frequency. -/
noncomputable def octaveStep (pt : ℕ → ℕ) (x y scale : ℝ)
    (st : ℝ × ℝ × ℝ × ℝ) : ℝ × ℝ × ℝ × ℝ :=
  let sampleX := (x / scale) * st.2.2.1
  let sampleY := (y / scale) * st.2.2.1
  (st.1 + noise pt sampleX sampleY * st.2.1,
   st.2.1 * 0.5, st.2.2.1 * 2, st.2.2.2 + st.2.1)

/-- The octave loop of createNoisePattern, run from the initial state
noiseValue = 0, amplitude = 1, frequency = 1, maxValue = 0. -/
noncomputable def octaveLoop (pt : ℕ → ℕ) (x y scale : ℝ) : ℕ → ℝ × ℝ × ℝ × ℝ
  | 0 => (0, 1, 1, 0)
  | o + 1 => octaveStep pt x y scale (octaveLoop pt x y scale o)

/-- The normalized per-pixel fractal noise of createNoisePattern:
(noiseValue / maxValue + 1) / 2. -/
noncomputable def fractalNormalized (pt : ℕ → ℕ) (x y scale : ℝ) (octaves : ℕ) : ℝ :=
  let st := octaveLoop pt x y scale octaves
  (st.1 / st.2.2.2 + 1) / 2

/-- The channel clamp Math.max(0, Math.min(255, v)). -/
def clamp255 (v : ℝ) : ℝ := Max.max 0 (Min.min 255 v)

/-- One pixel of the tile synthesized by createNoisePattern: each channel of
the base color shifted by effect * 255 with
effect = (noiseValue - 0.5) * intensity / 100, clamped to [0, 255]. -/
noncomputable def tilePixel (pt : ℕ → ℕ) (rgb : Rgb) (scale intensity : ℝ)
    (octaves : ℕ) (x y : ℕ) : ℝ × ℝ × ℝ :=
  let noiseValue := fractalNormalized pt x y scale octaves
  let effect := (noiseValue - 0.5) * (intensity / 100)
  (clamp255 ((rgb.r : ℝ) + effect * 255),
   clamp255 ((rgb.g : ℝ) + effect * 255),
   clamp255 ((rgb.b : ℝ) + effect * 255))

/-- A synthesized tile, as the function from pixel coordinates to the stored
channel values. -/
abbrev NoiseTile : Type := ℕ → ℕ → ℝ × ℝ × ℝ

/-- The bucketed cache key of getNoisePatternCacheKey: the first four
characters of the color string, scale and intensity rounded to the nearest
multiple of ten, and the octave count.  The seed is not part of the key. -/
def getNoisePatternCacheKey (baseColor : String) (scale intensity : ℚ) (octaves : ℕ) :
    String × ℤ × ℤ × ℕ :=
  (baseColor.take 4, jsRound (scale / 10) * 10, jsRound (intensity / 10) * 10, octaves)

/-- The module-level noisePatternCache, oldest entry first. -/
abbrev NoiseCache : Type := List ((String × ℤ × ℤ × ℕ) × NoiseTile)

/-- createNoisePattern from the texture synthesizer: look the bucketed key up
in the cache and return the cached tile on a hit; otherwise synthesize the
tile from the seeded simplex table, cache it (evicting the oldest entry once
the cache holds MAX_CACHE_SIZE = 10), and return it. -/
noncomputable def createNoisePattern (baseColor : String) (scale intensity : ℚ)
    (octaves : ℕ) (seed : ℝ) (cache : NoiseCache) : NoiseTile × NoiseCache :=
  let cacheKey := getNoisePatternCacheKey baseColor scale intensity octaves
  match cache.find? (fun e => e.1 == cacheKey) with
  | some e => (e.2, cache)
  | none =>
    let rgb := hexToRgb baseColor
    let tile : NoiseTile := fun x y =>
      tilePixel (permOfSeed seed) rgb ((scale : ℚ) : ℝ) ((intensity : ℚ) : ℝ) octaves x y
    let cache' : NoiseCache :=
      if cache.length ≥ 10 then cache.tail ++ [(cacheKey, tile)]
      else cache ++ [(cacheKey, tile)]
    (tile, cache')

theorem hexDigitVal_range (c : Char) (v : ℤ) (h : hexDigitVal c = some v) :
    0 ≤ v ∧ v ≤ 15 := by
  rw [hexDigitVal] at h
  split_ifs at h with h1 h2 h3
  · obtain ⟨ha, hb⟩ := h1
    simp [Char.le_def] at ha hb
    have ha' : 48 ≤ c.toNat := ha
    have hb' : c.toNat ≤ 57 := hb
    injection h with h
    omega
  · obtain ⟨ha, hb⟩ := h2
    simp [Char.le_def] at ha hb
    have ha' : 97 ≤ c.toNat := ha
    have hb' : c.toNat ≤ 102 := hb
    injection h with h
    omega
  · obtain ⟨ha, hb⟩ := h3
    simp [Char.le_def] at ha hb
    have ha' : 65 ≤ c.toNat := ha
    have hb' : c.toNat ≤ 70 := hb
    injection h with h
    omega

theorem parseHexPair_range (cA cB : Char) (v : ℤ) (h : parseHexPair cA cB = some v) :
    0 ≤ v ∧ v ≤ 255 := by
  rw [parseHexPair] at h
  split at h
  next hv lv hA hB =>
    have b1 := hexDigitVal_range cA hv hA
    have b2 := hexDigitVal_range cB lv hB
    injection h with h
    omega
  next => simp_all

theorem hexMatch_range (s : String) (r g b : ℤ) (h : hexMatch s = some (r, g, b)) :
    0 ≤ r ∧ r ≤ 255 ∧ 0 ≤ g ∧ g ≤ 255 ∧ 0 ≤ b ∧ b ≤ 255 := by
  rw [hexMatch] at h
  split at h
  next c1 c2 c3 c4 c5 c6 heq =>
    split at h
    next r' g' b' hp1 hp2 hp3 =>
      have b1 := parseHexPair_range c1 c2 r' hp1
      have b2 := parseHexPair_range c3 c4 g' hp2
      have b3 := parseHexPair_range c5 c6 b' hp3
      injection h with h
      obtain ⟨rfl, rfl, rfl⟩ : r' = r ∧ g' = g ∧ b' = b := by
        have h1 := congrArg Prod.fst h
        have h2 := congrArg (fun p => p.2.1) h
        have h3 := congrArg (fun p => p.2.2) h
        exact ⟨h1, h2, h3⟩
      exact ⟨b1.1, b1.2, b2.1, b2.2, b3.1, b3.2⟩
    next => simp_all
  next => simp_all

theorem hexToRgb_range (s : String) :
    0 ≤ (hexToRgb s).r ∧ (hexToRgb s).r ≤ 255 ∧
    0 ≤ (hexToRgb s).g ∧ (hexToRgb s).g ≤ 255 ∧
    0 ≤ (hexToRgb s).b ∧ (hexToRgb s).b ≤ 255 := by
  rw [hexToRgb]
  rcases hm : hexMatch s with _ | ⟨⟨r, g, b⟩⟩
  · norm_num
  · have hr := hexMatch_range s r g b hm
    exact hr

/-- The clamp is the identity on channel values already inside [0, 255]. -/
theorem clamp255_of_mem (v : ℝ) (h0 : 0 ≤ v) (h1 : v ≤ 255) : clamp255 v = v := by
  rw [clamp255, min_eq_right h1, max_eq_right h0]

/-- C8 counterexample: the noisePatternCache key ignores the seed and buckets
the color to its first four characters, so after synthesizing a tile for
"#a1b2c3" (intensity 0), a second request for the different color "#a1bbbb"
with intensity 0 hits the same cache bucket and returns the first tile: its
pixel (0,0) carries the channels (161, 178, 195) of "#a1b2c3" instead of the
requested base color (161, 187, 187). -/
theorem createNoisePattern_cache_collision :
    ((createNoisePattern "#a1bbbb" 50 0 3 2
        (createNoisePattern "#a1b2c3" 50 0 3 1 []).2).1 0 0) =
      (((161 : ℝ)), ((178 : ℝ)), ((195 : ℝ))) ∧
    (((161 : ℝ)), ((178 : ℝ)), ((195 : ℝ))) ≠
      (((hexToRgb "#a1bbbb").r : ℝ), ((hexToRgb "#a1bbbb").g : ℝ),
       ((hexToRgb "#a1bbbb").b : ℝ)) := by
  have hrgb1 : hexToRgb "#a1b2c3" = ⟨161, 178, 195⟩ := by decide
  have hrgb2 : hexToRgb "#a1bbbb" = ⟨161, 187, 187⟩ := by decide
  have hkeys : getNoisePatternCacheKey "#a1bbbb" 50 0 3 =
      getNoisePatternCacheKey "#a1b2c3" 50 0 3 := by
    rw [getNoisePatternCacheKey, getNoisePatternCacheKey]
    exact congrArg
      (fun s => (s, jsRound ((50 : ℚ) / 10) * 10, jsRound ((0 : ℚ) / 10) * 10, 3))
      (by decide)
  constructor
  · have hrun1 : (createNoisePattern "#a1b2c3" 50 0 3 1 []).2 =
        [(getNoisePatternCacheKey "#a1b2c3" 50 0 3, fun x y =>
          tilePixel (permOfSeed 1) (hexToRgb "#a1b2c3") ((50 : ℚ) : ℝ)
            ((0 : ℚ) : ℝ) 3 x y)] := by
      rw [createNoisePattern]
      simp
    rw [hrun1, createNoisePattern, hkeys]
    simp only [List.find?_cons, beq_self_eq_true, hrgb1]
    rw [tilePixel]
    simp only [Rat.cast_zero]
    norm_num
    constructor
    · rw [clamp255_of_mem] <;> norm_num
    constructor
    · rw [clamp255_of_mem] <;> norm_num
    · rw [clamp255_of_mem] <;> norm_num
  · rw [hrgb2]
    intro hcontra
    have := congrArg (fun p => p.2.1) hcontra
    norm_num at this

/-- C8 amended: when the request is actually synthesized - that is, when the
bucketed cache key (which ignores the seed and collapses nearby colors,
scales and intensities into one bucket) has no entry in the cache - intensity
0 yields a tile every pixel of which equals the base color exactly.  On a
cache hit the returned tile may instead belong to a different base color or
intensity of the same bucket. -/
theorem createNoisePattern_intensity_zero_fresh (baseColor : String) (scale : ℚ)
    (octaves : ℕ) (seed : ℝ) (cache : NoiseCache)
    (hmiss : cache.find?
      (fun e => e.1 == getNoisePatternCacheKey baseColor scale 0 octaves) = none)
    (x y : ℕ) :
    (createNoisePattern baseColor scale 0 octaves seed cache).1 x y =
      (((hexToRgb baseColor).r : ℝ), ((hexToRgb baseColor).g : ℝ),
       ((hexToRgb baseColor).b : ℝ)) := by
  rw [createNoisePattern]
  simp only [hmiss]
  rw [tilePixel]
  simp only [Rat.cast_zero]
  have hz : ∀ v : ℝ, v + (fractalNormalized (permOfSeed seed) x y ((scale : ℚ) : ℝ)
      octaves - 0.5) * ((0 : ℝ) / 100) * 255 = v := by
    intro v
    ring
  rw [hz, hz, hz]
  have hb := hexToRgb_range baseColor
  rw [clamp255_of_mem _ (by exact_mod_cast hb.1) (by exact_mod_cast hb.2.1),
    clamp255_of_mem _ (by exact_mod_cast hb.2.2.1) (by exact_mod_cast hb.2.2.2.1),
    clamp255_of_mem _ (by exact_mod_cast hb.2.2.2.2.1) (by exact_mod_cast hb.2.2.2.2.2)]

/-- Witness for the amended C8: a fresh synthesis of "#a1b2c3" at intensity 0
reproduces the base color at pixel (0, 0). -/
theorem createNoisePattern_intensity_zero_fresh_witness :
    (createNoisePattern "#a1b2c3" 50 0 3 1 []).1 0 0 =
      (((hexToRgb "#a1b2c3").r : ℝ), ((hexToRgb "#a1b2c3").g : ℝ),
       ((hexToRgb "#a1b2c3").b : ℝ)) :=
  createNoisePattern_intensity_zero_fresh "#a1b2c3" 50 3 1 [] rfl 0 0


noncomputable def phiReal (m : ℝ) : ℝ := (max 0 (1 / 2 - m ^ 2 / 2)) ^ 4 * m

noncomputable def phiPoly (m : ℝ) : ℝ := ((1 - m ^ 2) / 2) ^ 4 * m

theorem phiReal_eq_poly {m : ℝ} (hm : m ≤ 1) (hm' : -1 ≤ m) :
    phiReal m = phiPoly m := by
  rw [phiReal, phiPoly, max_eq_right (by nlinarith)]
  ring_nf

theorem phiReal_nonneg {m : ℝ} (hm : 0 ≤ m) : 0 ≤ phiReal m := by
  rw [phiReal]
  positivity

theorem phiReal_eq_zero {m : ℝ} (hm : 1 ≤ m) : phiReal m = 0 := by
  rw [phiReal, max_eq_left (by nlinarith)]
  ring

theorem phiPoly_hasDeriv (x : ℝ) :
    HasDerivAt phiPoly (((1 - x ^ 2) / 2) ^ 3 * (1 - 9 * x ^ 2) / 2) x := by
  have h1 : HasDerivAt (fun m : ℝ => (1 - m ^ 2) / 2) (-x) x := by
    have h := ((hasDerivAt_pow 2 x).const_sub 1).div_const 2
    convert h using 1
    push_cast
    ring
  have h2 := h1.pow 4
  have h3 := h2.mul (hasDerivAt_id x)
  have h4 : HasDerivAt phiPoly
      ((4 : ℕ) * ((1 - x ^ 2) / 2) ^ (4 - 1) * -x * x + ((1 - x ^ 2) / 2) ^ 4 * 1) x := by
    simpa [phiPoly, id] using h3
  convert h4 using 1
  push_cast
  ring

theorem phiPoly_continuous : Continuous phiPoly := by
  unfold phiPoly
  fun_prop

theorem phiPoly_anti : AntitoneOn phiPoly (Set.Icc (1 / 3 : ℝ) 1) := by
  apply antitoneOn_of_deriv_nonpos (convex_Icc _ _) phiPoly_continuous.continuousOn
  · intro x _
    exact (phiPoly_hasDeriv x).differentiableAt.differentiableWithinAt
  · intro x hx
    rw [interior_Icc] at hx
    rw [(phiPoly_hasDeriv x).deriv]
    have h1 : (0 : ℝ) ≤ ((1 - x ^ 2) / 2) ^ 3 := by
      have : (0 : ℝ) ≤ (1 - x ^ 2) / 2 := by nlinarith [hx.1, hx.2]
      positivity
    have h5 : (0 : ℝ) ≤ 9 * x ^ 2 - 1 := by nlinarith [hx.1]
    nlinarith [mul_nonneg h1 h5]

theorem phiPoly_mono : MonotoneOn phiPoly (Set.Icc (0 : ℝ) (1 / 3)) := by
  apply monotoneOn_of_deriv_nonneg (convex_Icc _ _) phiPoly_continuous.continuousOn
  · intro x _
    exact (phiPoly_hasDeriv x).differentiableAt.differentiableWithinAt
  · intro x hx
    rw [interior_Icc] at hx
    rw [(phiPoly_hasDeriv x).deriv]
    have h1 : (0 : ℝ) ≤ ((1 - x ^ 2) / 2) ^ 3 := by
      have : (0 : ℝ) ≤ (1 - x ^ 2) / 2 := by nlinarith [hx.1, hx.2]
      positivity
    have h5 : (0 : ℝ) ≤ 1 - 9 * x ^ 2 := by nlinarith [hx.1, hx.2]
    nlinarith [mul_nonneg h1 h5]

/-- phiReal is at most its value at any point м1 with 1/3 <= m1 <= m. -/
theorem phiReal_anti {m1 m : ℝ} (h13 : 1 / 3 ≤ m1) (hm : m1 ≤ m) :
    phiReal m ≤ phiReal m1 := by
  rcases le_or_lt m 1 with hle | hgt
  · rw [phiReal_eq_poly hle (by linarith), phiReal_eq_poly (by linarith) (by linarith)]
    exact phiPoly_anti ⟨h13, by linarith⟩ ⟨by linarith, hle⟩ hm
  · rw [phiReal_eq_zero (le_of_lt hgt)]
    exact phiReal_nonneg (by linarith)

theorem phiReal_mono {m m1 : ℝ} (hm : 0 ≤ m) (hmm : m ≤ m1) (h13 : m1 ≤ 1 / 3) :
    phiReal m ≤ phiReal m1 := by
  rw [phiReal_eq_poly (by linarith) (by linarith),
    phiReal_eq_poly (by linarith) (by linarith)]
  exact phiPoly_mono ⟨hm, by linarith⟩ ⟨by linarith, h13⟩ hmm

theorem phiReal_global {m : ℝ} (hm : 0 ≤ m) : phiReal m ≤ 256 / 19683 := by
  have h13 : phiReal (1 / 3) = 256 / 19683 := by
    rw [phiReal]
    norm_num
  rcases le_or_lt m (1 / 3) with hle | hgt
  · rw [← h13]
    exact phiReal_mono hm hle le_rfl
  · rw [← h13]
    exact phiReal_anti le_rfl (le_of_lt hgt)



noncomputable def simplexQ : ℝ := Real.sqrt 3 / 6

theorem simplexQ_pos : 0 < simplexQ := by
  unfold simplexQ
  have : 0 < Real.sqrt 3 := Real.sqrt_pos.mpr (by norm_num)
  linarith

theorem simplexQ_sq : simplexQ ^ 2 = 1 / 12 := by
  unfold simplexQ
  rw [div_pow, Real.sq_sqrt (by norm_num : (0 : ℝ) ≤ 3)]
  norm_num

theorem simplexQ_ge : (302697 : ℝ) / 2 ^ 20 ≤ simplexQ := by
  have h := Real.sq_sqrt (show (0 : ℝ) ≤ 3 by norm_num)
  have h0 := Real.sqrt_nonneg 3
  unfold simplexQ
  nlinarith [h, h0]

theorem simplexQ_le : simplexQ ≤ (302699 : ℝ) / 2 ^ 20 := by
  have h := Real.sq_sqrt (show (0 : ℝ) ≤ 3 by norm_num)
  have h0 := Real.sqrt_nonneg 3
  unfold simplexQ
  nlinarith [h, h0]

theorem simplexQ_le_half : simplexQ ≤ 1 / 2 := by
  have := simplexQ_le
  linarith

noncomputable def cornerK (c e : ℝ) : ℝ :=
  (max 0 (1 / 2 - c ^ 2 / 6 - e ^ 2 / 2)) ^ 4 * (2 * max (|c| * simplexQ) (|e| / 2))

noncomputable def cornerSum (u v : ℝ) : ℝ :=
  cornerK (u + v) (u - v) + cornerK (u + v - 1) (u - v - 1) + cornerK (u + v - 2) (u - v)

theorem cornerM_nonneg (c e : ℝ) : 0 ≤ 2 * max (|c| * simplexQ) (|e| / 2) := by
  have h1 : (0 : ℝ) ≤ |e| / 2 := by positivity
  have := le_max_right (|c| * simplexQ) (|e| / 2)
  linarith

theorem cornerK_le_phi (c e : ℝ) :
    cornerK c e ≤ phiReal (2 * max (|c| * simplexQ) (|e| / 2)) := by
  unfold cornerK phiReal
  have hm0 := cornerM_nonneg c e
  have key : (2 * max (|c| * simplexQ) (|e| / 2)) ^ 2 / 2 ≤ c ^ 2 / 6 + e ^ 2 / 2 := by
    rcases le_total (|c| * simplexQ) (|e| / 2) with h | h
    · rw [max_eq_right h]
      have he : (|e| / 2) ^ 2 = e ^ 2 / 4 := by rw [div_pow, sq_abs]; norm_num
      nlinarith [sq_nonneg c]
    · rw [max_eq_left h]
      have hc : (|c| * simplexQ) ^ 2 = c ^ 2 / 12 := by
        rw [mul_pow, sq_abs, simplexQ_sq]; ring
      nlinarith [sq_nonneg e]
  have h4 : (max 0 (1 / 2 - c ^ 2 / 6 - e ^ 2 / 2)) ^ 4
      ≤ (max 0 (1 / 2 - (2 * max (|c| * simplexQ) (|e| / 2)) ^ 2 / 2)) ^ 4 :=
    pow_le_pow_left (le_max_left _ _) (max_le_max le_rfl (by linarith)) 4
  exact mul_le_mul_of_nonneg_right h4 hm0

theorem cornerK_middle_le {c e E : ℝ} (he0 : 0 ≤ e) (heE : e ≤ E) (hE1 : E ≤ 1)
    (hc0 : 0 ≤ c) (hc2 : c ≤ 2) : cornerK (c - 1) (e - 1) ≤ E ^ 4 := by
  unfold cornerK
  have hq2 := simplexQ_le_half
  have hq0 := simplexQ_pos
  have hE0 : 0 ≤ E := le_trans he0 heE
  have habs_c : |c - 1| ≤ 1 := abs_le.mpr ⟨by linarith, by linarith⟩
  have habs_e : |e - 1| ≤ 1 := abs_le.mpr ⟨by linarith, by linarith⟩
  have hm1 : 2 * max (|c - 1| * simplexQ) (|e - 1| / 2) ≤ 1 := by
    have h1 : |c - 1| * simplexQ ≤ 1 / 2 := by nlinarith [abs_nonneg (c - 1)]
    have h2 : |e - 1| / 2 ≤ 1 / 2 := by linarith
    have := max_le h1 h2
    linarith
  have ht : max 0 (1 / 2 - (c - 1) ^ 2 / 6 - (e - 1) ^ 2 / 2) ≤ E := by
    apply max_le hE0
    nlinarith [sq_nonneg (c - 1)]
  calc (max 0 (1 / 2 - (c - 1) ^ 2 / 6 - (e - 1) ^ 2 / 2)) ^ 4
        * (2 * max (|c - 1| * simplexQ) (|e - 1| / 2))
      ≤ E ^ 4 * 1 := by
        apply mul_le_mul (pow_le_pow_left (le_max_left _ _) ht 4) hm1
          (cornerM_nonneg _ _) (pow_nonneg hE0 4)
    _ = E ^ 4 := mul_one _

theorem max0_pow4_le (x : ℝ) : (max 0 x) ^ 4 ≤ x ^ 4 := by
  rcases le_total x 0 with h | h
  · rw [max_eq_left h]
    have h4 : (0 : ℝ) ^ 4 = 0 := by norm_num
    have h5 : x ^ 4 = (x ^ 2) ^ 2 := by ring
    rw [h4, h5]
    positivity
  · rw [max_eq_right h]

set_option maxHeartbeats 1000000 in
theorem Bpoly_bound {h e : ℝ} (hh2 : h ^ 2 ≤ 81 / 400) (he2 : e ^ 2 ≤ 81 / 2500) :
    2 * (1 + h) * (1 / 2 - (1 + h) ^ 2 / 6 - e ^ 2 / 2) ^ 4
      + 2 * (1 - h) * (1 / 2 - (1 - h) ^ 2 / 6 - e ^ 2 / 2) ^ 4
      ≤ 4 / 81 - (7 / 50) * e ^ 2 := by
  obtain ⟨x, hx⟩ : ∃ x : ℝ, x = h ^ 2 / 6 + e ^ 2 / 2 := ⟨_, rfl⟩
  obtain ⟨R, hR⟩ : ∃ R : ℝ, R = -(16 / 3) * x ^ 3 + 4 * x ^ 4 - (8 / 3) * h ^ 2 * x ^ 2
      + (16 / 3) * h ^ 2 * x ^ 3 + (16 / 27) * h ^ 4 * x := ⟨_, rfl⟩
  have hx0 : 0 ≤ x := by rw [hx]; positivity
  have hx20 : x ≤ 1 / 20 := by rw [hx]; linarith
  have hh6 : h ^ 2 ≤ 6 * x := by rw [hx]; linarith [sq_nonneg e]
  have hdecomp : 2 * (1 + h) * (1 / 2 - (1 + h) ^ 2 / 6 - e ^ 2 / 2) ^ 4
      + 2 * (1 - h) * (1 / 2 - (1 - h) ^ 2 / 6 - e ^ 2 / 2) ^ 4
      = 4 / 81 - (8 / 27) * e ^ 2 - (2 / 27) * h ^ 4
        + (4 / 9) * h ^ 2 * e ^ 2 + (2 / 3) * e ^ 4 + R := by
    rw [hR, hx]
    ring
  have hx3 : (0 : ℝ) ≤ x ^ 3 := pow_nonneg hx0 3
  have hh2x : (0 : ℝ) ≤ h ^ 2 * x := mul_nonneg (sq_nonneg h) hx0
  have e1 : h ^ 2 * x ^ 3 ≤ 6 * x ^ 4 := by
    nlinarith [mul_le_mul_of_nonneg_right hh6 hx3]
  have e2 : h ^ 4 * x ≤ 6 * (h ^ 2 * x ^ 2) := by
    nlinarith [mul_le_mul_of_nonneg_right hh6 hh2x]
  have hx2b : x ^ 2 ≤ 1 / 400 := by
    nlinarith [mul_le_mul hx20 hx20 hx0 (by norm_num : (0 : ℝ) ≤ 1 / 20)]
  have e3 : x ^ 4 ≤ (1 / 400) * x ^ 2 := by
    nlinarith [mul_le_mul_of_nonneg_right hx2b (sq_nonneg x)]
  have e4 : h ^ 2 * x ^ 2 ≤ (81 / 400) * x ^ 2 := mul_le_mul_of_nonneg_right hh2 (sq_nonneg x)
  have hRb : R ≤ (81 / 100) * x ^ 2 := by
    rw [hR]
    linarith [e1, e2, e3, e4, hx3, mul_nonneg (sq_nonneg h) (sq_nonneg x)]
  have hx2e : x ^ 2 = h ^ 4 / 36 + h ^ 2 * e ^ 2 / 6 + e ^ 4 / 4 := by rw [hx]; ring
  have hb3 : h ^ 2 * e ^ 2 ≤ (81 / 400) * e ^ 2 := mul_le_mul_of_nonneg_right hh2 (sq_nonneg e)
  have hb4 : e ^ 4 ≤ (81 / 2500) * e ^ 2 := by
    nlinarith [mul_le_mul_of_nonneg_right he2 (sq_nonneg e)]
  have hb5 : (0 : ℝ) ≤ h ^ 4 := by positivity
  rw [hdecomp]
  linarith [hRb, hx2e, hb3, hb4, hb5, sq_nonneg e]

set_option maxHeartbeats 1600000 in
theorem cornerTriple_local {c e : ℝ} (hc1 : 11 / 20 ≤ c) (hc2 : c ≤ 29 / 20)
    (he0 : 0 ≤ e) (he1 : e ≤ 9 / 50) :
    cornerK c e + cornerK (c - 1) (e - 1) + cornerK (c - 2) e ≤ 1 / 70 := by
  have hq0 : 0 < simplexQ := simplexQ_pos
  have hq27 : 2 / 7 ≤ simplexQ := by
    have h1 := simplexQ_ge
    have h2 : (2 : ℝ) / 7 ≤ 302697 / 2 ^ 20 := by norm_num
    linarith
  have hq81 : simplexQ ≤ 81 / 280 := by
    have h1 := simplexQ_le
    have h2 : (302699 : ℝ) / 2 ^ 20 ≤ 81 / 280 := by norm_num
    linarith
  have hK1 : cornerK (c - 1) (e - 1) ≤ e ^ 4 :=
    cornerK_middle_le he0 le_rfl (by linarith) (by linarith) (by linarith)
  have habs_c : |c| = c := abs_of_nonneg (by linarith)
  have habs_e : |e| = e := abs_of_nonneg he0
  have hcq : (2 / 7 : ℝ) * (11 / 20) ≤ simplexQ * c :=
    mul_le_mul hq27 hc1 (by norm_num) (le_of_lt hq0)
  have hmax0 : max (|c| * simplexQ) (|e| / 2) = c * simplexQ := by
    rw [habs_c, habs_e]
    apply max_eq_left
    nlinarith
  have hK0 : cornerK c e ≤ (1 / 2 - c ^ 2 / 6 - e ^ 2 / 2) ^ 4 * (2 * (c * simplexQ)) := by
    unfold cornerK
    rw [hmax0]
    apply mul_le_mul_of_nonneg_right (max0_pow4_le _)
    nlinarith
  have habs_c2 : |c - 2| = 2 - c := by rw [abs_of_nonpos (by linarith)]; ring
  have hcq2 : (2 / 7 : ℝ) * (11 / 20) ≤ simplexQ * (2 - c) :=
    mul_le_mul hq27 (by linarith) (by norm_num) (le_of_lt hq0)
  have hmax2 : max (|c - 2| * simplexQ) (|e| / 2) = (2 - c) * simplexQ := by
    rw [habs_c2, habs_e]
    apply max_eq_left
    nlinarith
  have hK2 : cornerK (c - 2) e
      ≤ (1 / 2 - (c - 2) ^ 2 / 6 - e ^ 2 / 2) ^ 4 * (2 * ((2 - c) * simplexQ)) := by
    unfold cornerK
    rw [hmax2]
    apply mul_le_mul_of_nonneg_right (max0_pow4_le _)
    nlinarith
  have hh2 : (c - 1) ^ 2 ≤ 81 / 400 := by nlinarith
  have he2 : e ^ 2 ≤ 81 / 2500 := by nlinarith
  have hBe := Bpoly_bound hh2 he2
  have hb4 : e ^ 4 ≤ (81 / 2500) * e ^ 2 := by
    nlinarith [mul_le_mul_of_nonneg_right he2 (sq_nonneg e)]
  have hqe : (2 / 7 : ℝ) * e ^ 2 ≤ simplexQ * e ^ 2 :=
    mul_le_mul_of_nonneg_right hq27 (sq_nonneg e)
  calc cornerK c e + cornerK (c - 1) (e - 1) + cornerK (c - 2) e
      ≤ (1 / 2 - c ^ 2 / 6 - e ^ 2 / 2) ^ 4 * (2 * (c * simplexQ)) + e ^ 4
        + (1 / 2 - (c - 2) ^ 2 / 6 - e ^ 2 / 2) ^ 4 * (2 * ((2 - c) * simplexQ)) := by
        linarith
    _ = simplexQ * (2 * (1 + (c - 1)) * (1 / 2 - (1 + (c - 1)) ^ 2 / 6 - e ^ 2 / 2) ^ 4
        + 2 * (1 - (c - 1)) * (1 / 2 - (1 - (c - 1)) ^ 2 / 6 - e ^ 2 / 2) ^ 4) + e ^ 4 := by
        ring
    _ ≤ simplexQ * (4 / 81 - (7 / 50) * e ^ 2) + e ^ 4 := by
        have := mul_le_mul_of_nonneg_left hBe (le_of_lt hq0)
        linarith
    _ ≤ 1 / 70 := by nlinarith [hq81, hqe, hb4, sq_nonneg e]


theorem cornerK_nonneg (c e : ℝ) : 0 ≤ cornerK c e :=
  mul_nonneg (pow_nonneg (le_max_left _ _) 4) (cornerM_nonneg c e)

theorem cornerK_even (c e : ℝ) : cornerK c (-e) = cornerK c e := by
  unfold cornerK
  rw [abs_neg, show ((-e) ^ 2 : ℝ) = e ^ 2 from by ring]



structure NQ where
  n : ℕ
  d : ℕ

def NQ.ple (a b : NQ) : Bool := decide (a.n * b.d ≤ b.n * a.d)

def NQ.add (a b : NQ) : NQ := ⟨a.n * b.d + b.n * a.d, a.d * b.d⟩

def NQ.mul (a b : NQ) : NQ := ⟨a.n * b.n, a.d * b.d⟩

def NQ.pmin (a b : NQ) : NQ := if NQ.ple a b then a else b

def NQ.ok (a : NQ) : Prop := 0 < a.d

noncomputable def NQ.val (a : NQ) : ℝ := (a.n : ℝ) / (a.d : ℝ)

def phiN (m : NQ) : NQ :=
  let tp : NQ := ⟨m.d * m.d - m.n * m.n, 2 * (m.d * m.d)⟩
  let tp2 := tp.mul tp
  (tp2.mul tp2).mul m

def cornerN (d alo ahi blo bhi : ℕ) : NQ :=
  let d2 := d * d
  let zn := alo * alo + 3 * (blo * blo)
  let tc : NQ := ⟨3 * d2 - zn, 6 * d2⟩
  let mhi : NQ := ⟨2 * max (ahi * 302699) (bhi * 524288), d * 1048576⟩
  let mlo : NQ := ⟨2 * max (alo * 302697) (blo * 524288), d * 1048576⟩
  let t2 := tc.mul tc
  let k := (t2.mul t2).mul mhi
  let pb :=
    if NQ.ple ⟨1, 3⟩ mlo then phiN mlo
    else if NQ.ple mhi ⟨1, 3⟩ then phiN mhi
    else ⟨256, 19683⟩
  NQ.pmin k pb

def sumN (d ulo uhi vlo vhi : ℕ) : NQ :=
  let clo := ulo + vlo
  let chi := uhi + vhi
  let elo := ulo - vhi
  let ehi := uhi - vlo
  let k0 := cornerN d clo chi elo ehi
  let k1 := cornerN d ((clo - d) + (d - chi)) (max (chi - d) (d - clo)) (d - ehi) (d - elo)
  let k2 := cornerN d (2 * d - chi) (2 * d - clo) elo ehi
  let e4 : NQ := ⟨ehi * ehi * (ehi * ehi), d * d * (d * d)⟩
  (k0.add (NQ.pmin k1 e4)).add k2

def inLocalN (d ulo uhi vlo vhi : ℕ) : Bool :=
  decide (11 * d ≤ 20 * (ulo + vlo)) && decide (20 * (uhi + vhi) ≤ 29 * d) &&
    decide (50 * (uhi - vlo) ≤ 9 * d)

def checkBoxN : ℕ → ℕ → ℕ → ℕ → ℕ → ℕ → Bool
  | 0, _, _, _, _, _ => false
  | fuel + 1, d, ulo, uhi, vlo, vhi =>
    if decide (uhi < vlo) then true
    else if inLocalN d ulo uhi vlo vhi then true
    else if NQ.ple (sumN d ulo uhi vlo vhi) ⟨1, 70⟩ then true
    else
      checkBoxN fuel (2 * d) (2 * ulo) (ulo + uhi) (2 * vlo) (vlo + vhi) &&
      checkBoxN fuel (2 * d) (ulo + uhi) (2 * uhi) (2 * vlo) (vlo + vhi) &&
      checkBoxN fuel (2 * d) (2 * ulo) (ulo + uhi) (vlo + vhi) (2 * vhi) &&
      checkBoxN fuel (2 * d) (ulo + uhi) (2 * uhi) (vlo + vhi) (2 * vhi)

theorem NQ.ok_mk {n d : ℕ} (h : 0 < d) : (⟨n, d⟩ : NQ).ok := h

theorem NQ.ok_add {a b : NQ} (ha : a.ok) (hb : b.ok) : (a.add b).ok := mul_pos ha hb

theorem NQ.ok_mul {a b : NQ} (ha : a.ok) (hb : b.ok) : (a.mul b).ok := mul_pos ha hb

theorem NQ.ok_pmin {a b : NQ} (ha : a.ok) (hb : b.ok) : (a.pmin b).ok := by
  unfold NQ.pmin
  split <;> assumption

theorem NQ.dpos_real {a : NQ} (ha : a.ok) : (0 : ℝ) < (a.d : ℝ) := by exact_mod_cast ha

theorem NQ.val_nonneg (a : NQ) : 0 ≤ a.val := by
  unfold NQ.val
  positivity

theorem NQ.val_add {a b : NQ} (ha : a.ok) (hb : b.ok) : (a.add b).val = a.val + b.val := by
  unfold NQ.val NQ.add
  have h1 := NQ.dpos_real ha
  have h2 := NQ.dpos_real hb
  push_cast
  field_simp

theorem NQ.val_mul {a b : NQ} (ha : a.ok) (hb : b.ok) : (a.mul b).val = a.val * b.val := by
  unfold NQ.val NQ.mul
  push_cast
  ring

theorem NQ.ple_iff {a b : NQ} (ha : a.ok) (hb : b.ok) :
    a.ple b = true ↔ a.val ≤ b.val := by
  unfold NQ.ple NQ.val
  rw [decide_eq_true_iff, div_le_div_iff (NQ.dpos_real ha) (NQ.dpos_real hb)]
  constructor
  · intro h
    exact_mod_cast h
  · intro h
    exact_mod_cast h

theorem NQ.ple_true {a b : NQ} (ha : a.ok) (hb : b.ok) (h : a.ple b = true) :
    a.val ≤ b.val := (NQ.ple_iff ha hb).mp h

theorem NQ.val_pmin {a b : NQ} (ha : a.ok) (hb : b.ok) :
    (a.pmin b).val = min a.val b.val := by
  unfold NQ.pmin
  split
  next h => rw [min_eq_left (NQ.ple_true ha hb h)]
  next h =>
    have : ¬ a.val ≤ b.val := fun hc => h ((NQ.ple_iff ha hb).mpr hc)
    rw [min_eq_right (le_of_not_le this)]

theorem natsub_cast (a b : ℕ) : ((a - b : ℕ) : ℝ) = max 0 ((a : ℝ) - (b : ℝ)) := by
  rcases le_total b a with h | h
  · rw [Nat.cast_sub h, max_eq_right (sub_nonneg.mpr (by exact_mod_cast h))]
  · rw [Nat.sub_eq_zero_of_le h, max_eq_left (sub_nonpos.mpr (by exact_mod_cast h))]
    norm_num

theorem phiN_ok {m : NQ} (okm : m.ok) : (phiN m).ok := by
  simp only [phiN]
  have htp : (⟨m.d * m.d - m.n * m.n, 2 * (m.d * m.d)⟩ : NQ).ok :=
    NQ.ok_mk (Nat.mul_pos two_pos (Nat.mul_pos okm okm))
  exact NQ.ok_mul (NQ.ok_mul (NQ.ok_mul htp htp) (NQ.ok_mul htp htp)) okm

theorem phiN_val {m : NQ} (okm : m.ok) : (phiN m).val = phiReal m.val := by
  simp only [phiN, phiReal]
  have hdm := NQ.dpos_real okm
  have htp : (⟨m.d * m.d - m.n * m.n, 2 * (m.d * m.d)⟩ : NQ).ok :=
    NQ.ok_mk (Nat.mul_pos two_pos (Nat.mul_pos okm okm))
  have hD : (0 : ℝ) ≤ ((2 * (m.d * m.d) : ℕ) : ℝ) := by positivity
  have htpv : (⟨m.d * m.d - m.n * m.n, 2 * (m.d * m.d)⟩ : NQ).val
      = max 0 (1 / 2 - m.val ^ 2 / 2) := by
    unfold NQ.val
    rw [natsub_cast, ← max_div_div_right hD, zero_div]
    congr 1
    push_cast
    field_simp
    ring
  rw [NQ.val_mul (NQ.ok_mul (NQ.ok_mul htp htp) (NQ.ok_mul htp htp)) okm,
      NQ.val_mul (NQ.ok_mul htp htp) (NQ.ok_mul htp htp), NQ.val_mul htp htp, htpv]
  ring


theorem nqval_mk (n d : ℕ) : (⟨n, d⟩ : NQ).val = (n : ℝ) / (d : ℝ) := rfl

theorem cornerN_ok {d alo ahi blo bhi : ℕ} (hd : 0 < d) : (cornerN d alo ahi blo bhi).ok := by
  simp only [cornerN]
  have hdd : 0 < d * d := Nat.mul_pos hd hd
  have htc : (⟨3 * (d * d) - (alo * alo + 3 * (blo * blo)), 6 * (d * d)⟩ : NQ).ok :=
    NQ.ok_mk (Nat.mul_pos (by norm_num) hdd)
  have hmhi : (⟨2 * max (ahi * 302699) (bhi * 524288), d * 1048576⟩ : NQ).ok :=
    NQ.ok_mk (Nat.mul_pos hd (by norm_num))
  have hmlo : (⟨2 * max (alo * 302697) (blo * 524288), d * 1048576⟩ : NQ).ok :=
    NQ.ok_mk (Nat.mul_pos hd (by norm_num))
  apply NQ.ok_pmin (NQ.ok_mul (NQ.ok_mul (NQ.ok_mul htc htc) (NQ.ok_mul htc htc)) hmhi)
  split
  · exact phiN_ok hmlo
  split
  · exact phiN_ok hmhi
  · exact NQ.ok_mk (by norm_num)

theorem sumN_ok {d ulo uhi vlo vhi : ℕ} (hd : 0 < d) : (sumN d ulo uhi vlo vhi).ok := by
  simp only [sumN]
  have hdd : 0 < d * d := Nat.mul_pos hd hd
  exact NQ.ok_add (NQ.ok_add (cornerN_ok hd)
    (NQ.ok_pmin (cornerN_ok hd) (NQ.ok_mk (Nat.mul_pos hdd hdd)))) (cornerN_ok hd)

theorem maxmul_le {A B Ap Bp D : ℝ} (hD : 0 ≤ D) (h1 : A * D ≤ Ap) (h2 : B * D ≤ Bp) :
    max A B * D ≤ max Ap Bp := by
  rw [max_mul_of_nonneg _ _ hD]
  exact max_le_max h1 h2

theorem le_maxmul {A B Ap Bp D : ℝ} (hD : 0 ≤ D) (h1 : Ap ≤ A * D) (h2 : Bp ≤ B * D) :
    max Ap Bp ≤ max A B * D := by
  rw [max_mul_of_nonneg _ _ hD]
  exact max_le_max h1 h2

set_option maxHeartbeats 3200000 in
theorem cornerN_sound {d alo ahi blo bhi : ℕ} (hd : 0 < d) {c e : ℝ}
    (ha1 : (alo : ℝ) / (d : ℝ) ≤ |c|) (ha2 : |c| ≤ (ahi : ℝ) / (d : ℝ))
    (hb1 : (blo : ℝ) / (d : ℝ) ≤ |e|) (hb2 : |e| ≤ (bhi : ℝ) / (d : ℝ)) :
    cornerK c e ≤ (cornerN d alo ahi blo bhi).val := by
  simp only [cornerN]
  unfold cornerK
  set tcq : NQ := ⟨3 * (d * d) - (alo * alo + 3 * (blo * blo)), 6 * (d * d)⟩ with htcq
  set mhiq : NQ := ⟨2 * max (ahi * 302699) (bhi * 524288), d * 1048576⟩ with hmhiq
  set mloq : NQ := ⟨2 * max (alo * 302697) (blo * 524288), d * 1048576⟩ with hmloq
  have hdR : (0 : ℝ) < (d : ℝ) := by exact_mod_cast hd
  have hdd : 0 < d * d := Nat.mul_pos hd hd
  have ok_tc : tcq.ok := NQ.ok_mk (Nat.mul_pos (by norm_num) hdd)
  have ok_mhi : mhiq.ok := NQ.ok_mk (Nat.mul_pos hd (by norm_num))
  have ok_mlo : mloq.ok := NQ.ok_mk (Nat.mul_pos hd (by norm_num))
  have ok_t2 := NQ.ok_mul ok_tc ok_tc
  have ok_k := NQ.ok_mul (NQ.ok_mul ok_t2 ok_t2) ok_mhi
  have h3 : (⟨1, 3⟩ : NQ).ok := NQ.ok_mk (by norm_num)
  have hv3 : (⟨1, 3⟩ : NQ).val = 1 / 3 := by rw [nqval_mk]; norm_num
  have hq0 := simplexQ_pos
  have haloR : (alo : ℝ) ≤ |c| * (d : ℝ) := (div_le_iff hdR).mp ha1
  have hahiR : |c| * (d : ℝ) ≤ (ahi : ℝ) := (le_div_iff hdR).mp ha2
  have hbloR : (blo : ℝ) ≤ |e| * (d : ℝ) := (div_le_iff hdR).mp hb1
  have hbhiR : |e| * (d : ℝ) ≤ (bhi : ℝ) := (le_div_iff hdR).mp hb2
  have hq20hi : simplexQ * 1048576 ≤ 302699 := by
    have h := simplexQ_le
    nlinarith
  have hq20lo : (302697 : ℝ) ≤ simplexQ * 1048576 := by
    have h := simplexQ_ge
    nlinarith
  -- falloff upper bound
  have halo2 : (alo : ℝ) * (alo : ℝ) ≤ c ^ 2 * ((d : ℝ) * (d : ℝ)) := by
    nlinarith [mul_self_le_mul_self (Nat.cast_nonneg alo) haloR, sq_abs c, abs_nonneg c]
  have hblo2 : (blo : ℝ) * (blo : ℝ) ≤ e ^ 2 * ((d : ℝ) * (d : ℝ)) := by
    nlinarith [mul_self_le_mul_self (Nat.cast_nonneg blo) hbloR, sq_abs e, abs_nonneg e]
  have htc : max 0 (1 / 2 - c ^ 2 / 6 - e ^ 2 / 2) ≤ tcq.val := by
    rw [htcq, nqval_mk, natsub_cast,
        ← max_div_div_right (by positivity : (0 : ℝ) ≤ ((6 * (d * d) : ℕ) : ℝ)), zero_div]
    apply max_le_max le_rfl
    rw [le_div_iff (by exact_mod_cast Nat.mul_pos (by norm_num) hdd : (0 : ℝ) < ((6 * (d * d) : ℕ) : ℝ))]
    push_cast
    nlinarith [halo2, hblo2]
  have htc0 : (0 : ℝ) ≤ tcq.val := NQ.val_nonneg _
  set m : ℝ := 2 * max (|c| * simplexQ) (|e| / 2) with hmdef
  have hm0 : 0 ≤ m := cornerM_nonneg c e
  have hmhi : m ≤ mhiq.val := by
    rw [hmhiq, nqval_mk]
    push_cast [Nat.cast_max]
    rw [le_div_iff (by positivity)]
    have h1 : |c| * simplexQ * ((d : ℝ) * 1048576) ≤ (ahi : ℝ) * 302699 := by
      nlinarith [mul_le_mul hahiR hq20hi
        (mul_nonneg (le_of_lt hq0) (by norm_num)) (le_trans (mul_nonneg (abs_nonneg c) (le_of_lt hdR)) hahiR)]
    have h2 : |e| / 2 * ((d : ℝ) * 1048576) ≤ (bhi : ℝ) * 524288 := by
      nlinarith [hbhiR]
    rw [hmdef, mul_assoc]
    have := maxmul_le (by positivity : (0 : ℝ) ≤ (d : ℝ) * 1048576) h1 h2
    linarith
  have hmlo : mloq.val ≤ m := by
    rw [hmloq, nqval_mk]
    push_cast [Nat.cast_max]
    rw [div_le_iff (by positivity)]
    have h1 : (alo : ℝ) * 302697 ≤ |c| * simplexQ * ((d : ℝ) * 1048576) := by
      nlinarith [mul_le_mul haloR hq20lo (by norm_num)
        (mul_nonneg (abs_nonneg c) (le_of_lt hdR))]
    have h2 : (blo : ℝ) * 524288 ≤ |e| / 2 * ((d : ℝ) * 1048576) := by
      nlinarith [hbloR]
    rw [hmdef, mul_assoc]
    have := le_maxmul (by positivity : (0 : ℝ) ≤ (d : ℝ) * 1048576) h1 h2
    linarith
  have hK_le_k : (max 0 (1 / 2 - c ^ 2 / 6 - e ^ 2 / 2)) ^ 4 * m
      ≤ (((tcq.mul tcq).mul (tcq.mul tcq)).mul mhiq).val := by
    rw [NQ.val_mul (NQ.ok_mul ok_t2 ok_t2) ok_mhi, NQ.val_mul ok_t2 ok_t2,
        NQ.val_mul ok_tc ok_tc]
    have hp4 : (max 0 (1 / 2 - c ^ 2 / 6 - e ^ 2 / 2)) ^ 4 ≤ tcq.val ^ 4 :=
      pow_le_pow_left (le_max_left _ _) htc 4
    calc (max 0 (1 / 2 - c ^ 2 / 6 - e ^ 2 / 2)) ^ 4 * m
        ≤ tcq.val ^ 4 * mhiq.val := mul_le_mul hp4 hmhi hm0 (pow_nonneg htc0 4)
      _ = tcq.val * tcq.val * (tcq.val * tcq.val) * mhiq.val := by ring
  have hK_le_phi : (max 0 (1 / 2 - c ^ 2 / 6 - e ^ 2 / 2)) ^ 4 * m ≤ phiReal m :=
    cornerK_le_phi c e
  rw [NQ.val_pmin ok_k]
  swap
  · split
    · exact phiN_ok ok_mlo
    split
    · exact phiN_ok ok_mhi
    · exact NQ.ok_mk (by norm_num)
  apply le_min hK_le_k
  split
  next hb1' =>
    have h13 := NQ.ple_true h3 ok_mlo hb1'
    rw [hv3] at h13
    rw [phiN_val ok_mlo]
    exact le_trans hK_le_phi (phiReal_anti h13 hmlo)
  split
  next hb1' hb2' =>
    have h13 := NQ.ple_true ok_mhi h3 hb2'
    rw [hv3] at h13
    rw [phiN_val ok_mhi]
    exact le_trans hK_le_phi (phiReal_mono hm0 hmhi h13)
  next =>
    have hval : ((⟨256, 19683⟩ : NQ)).val = 256 / 19683 := by rw [nqval_mk]; norm_num
    rw [hval]
    exact le_trans hK_le_phi (phiReal_global hm0)


set_option maxHeartbeats 1600000 in
theorem sumN_sound {d ulo uhi vlo vhi : ℕ} (hd : 0 < d) (hui : uhi ≤ d) (hvi : vhi ≤ d)
    {u v : ℝ} (hu1 : (ulo : ℝ) / (d : ℝ) ≤ u) (hu2 : u ≤ (uhi : ℝ) / (d : ℝ))
    (hv1 : (vlo : ℝ) / (d : ℝ) ≤ v) (hv2 : v ≤ (vhi : ℝ) / (d : ℝ)) (hvu : v ≤ u) :
    cornerSum u v ≤ (sumN d ulo uhi vlo vhi).val := by
  simp only [sumN, cornerSum]
  have hdR : (0 : ℝ) < (d : ℝ) := by exact_mod_cast hd
  have hulo : (ulo : ℝ) ≤ u * d := (div_le_iff hdR).mp hu1
  have huhi : u * d ≤ (uhi : ℝ) := (le_div_iff hdR).mp hu2
  have hvlo : (vlo : ℝ) ≤ v * d := (div_le_iff hdR).mp hv1
  have hvhi : v * d ≤ (vhi : ℝ) := (le_div_iff hdR).mp hv2
  have huiR : (uhi : ℝ) ≤ (d : ℝ) := by exact_mod_cast hui
  have hviR : (vhi : ℝ) ≤ (d : ℝ) := by exact_mod_cast hvi
  have hu0 : 0 ≤ u := le_trans (by positivity) hu1
  have hv0 : 0 ≤ v := le_trans (by positivity) hv1
  have hu1R : u ≤ 1 := by nlinarith
  have hv1R : v ≤ 1 := by nlinarith
  have he0 : 0 ≤ u - v := by linarith
  have hc0 : 0 ≤ u + v := by linarith
  have hc2 : u + v ≤ 2 := by linarith
  have habsC : |u + v| = u + v := abs_of_nonneg hc0
  have habsE : |u - v| = u - v := abs_of_nonneg he0
  have A0lo : ((ulo + vlo : ℕ) : ℝ) / (d : ℝ) ≤ |u + v| := by
    rw [habsC, div_le_iff hdR]
    push_cast
    nlinarith
  have A0hi : |u + v| ≤ ((uhi + vhi : ℕ) : ℝ) / (d : ℝ) := by
    rw [habsC, le_div_iff hdR]
    push_cast
    nlinarith
  have B0lo : ((ulo - vhi : ℕ) : ℝ) / (d : ℝ) ≤ |u - v| := by
    rw [habsE, div_le_iff hdR, natsub_cast]
    apply max_le (by nlinarith) (by nlinarith)
  have B0hi : |u - v| ≤ ((uhi - vlo : ℕ) : ℝ) / (d : ℝ) := by
    rw [habsE, le_div_iff hdR, natsub_cast]
    refine le_trans (by nlinarith) (le_max_right 0 ((uhi : ℝ) - (vlo : ℝ)))
  have A1lo : ((((ulo + vlo) - d) + (d - (uhi + vhi)) : ℕ) : ℝ) / (d : ℝ) ≤ |u + v - 1| := by
    rw [div_le_iff hdR]
    push_cast [natsub_cast]
    rcases le_total (u + v) 1 with hc | hc
    · rw [abs_of_nonpos (by linarith)]
      have hm1 : max 0 ((ulo : ℝ) + (vlo : ℝ) - (d : ℝ)) = 0 := max_eq_left (by nlinarith)
      rw [hm1, zero_add]
      apply max_le (by nlinarith) (by nlinarith)
    · rw [abs_of_nonneg (by linarith)]
      have hm2 : max 0 ((d : ℝ) - ((uhi : ℝ) + (vhi : ℝ))) = 0 := max_eq_left (by nlinarith)
      rw [hm2, add_zero]
      apply max_le (by nlinarith) (by nlinarith)
  have A1hi : |u + v - 1| ≤ ((max ((uhi + vhi) - d) (d - (ulo + vlo)) : ℕ) : ℝ) / (d : ℝ) := by
    rw [le_div_iff hdR]
    push_cast [natsub_cast, Nat.cast_max]
    rcases le_total (u + v) 1 with hc | hc
    · rw [abs_of_nonpos (by linarith)]
      refine le_trans (le_trans (by nlinarith) (le_max_right 0 ((d : ℝ) - ((ulo : ℝ) + (vlo : ℝ))))) (le_max_right _ _)
    · rw [abs_of_nonneg (by linarith)]
      refine le_trans (le_trans (by nlinarith) (le_max_right 0 (((uhi : ℝ) + (vhi : ℝ)) - (d : ℝ)))) (le_max_left _ _)
  have B1lo : ((d - (uhi - vlo) : ℕ) : ℝ) / (d : ℝ) ≤ |u - v - 1| := by
    rw [abs_of_nonpos (by linarith), div_le_iff hdR]
    push_cast [natsub_cast]
    apply max_le (by nlinarith)
    have hx : (u - v) * (d : ℝ) ≤ max 0 ((uhi : ℝ) - (vlo : ℝ)) :=
      le_trans (by nlinarith) (le_max_right _ _)
    nlinarith
  have B1hi : |u - v - 1| ≤ ((d - (ulo - vhi) : ℕ) : ℝ) / (d : ℝ) := by
    rw [abs_of_nonpos (by linarith), le_div_iff hdR]
    push_cast [natsub_cast]
    refine le_trans ?_ (le_max_right 0 _)
    have hx : max 0 ((ulo : ℝ) - (vhi : ℝ)) ≤ (u - v) * (d : ℝ) :=
      max_le (by nlinarith) (by nlinarith)
    nlinarith
  have A2lo : ((2 * d - (uhi + vhi) : ℕ) : ℝ) / (d : ℝ) ≤ |u + v - 2| := by
    rw [abs_of_nonpos (by linarith), div_le_iff hdR]
    push_cast [natsub_cast]
    apply max_le (by nlinarith) (by nlinarith)
  have A2hi : |u + v - 2| ≤ ((2 * d - (ulo + vlo) : ℕ) : ℝ) / (d : ℝ) := by
    rw [abs_of_nonpos (by linarith), le_div_iff hdR]
    push_cast [natsub_cast]
    refine le_trans (by nlinarith) (le_max_right 0 _)
  have hK0 := cornerN_sound hd A0lo A0hi B0lo B0hi
  have hK1 := cornerN_sound hd A1lo A1hi B1lo B1hi
  have hK2 := cornerN_sound hd A2lo A2hi B0lo B0hi
  have hE1 : ((uhi - vlo : ℕ) : ℝ) / (d : ℝ) ≤ 1 := by
    rw [div_le_one hdR]
    exact_mod_cast le_trans (Nat.sub_le uhi vlo) hui
  have heE : u - v ≤ ((uhi - vlo : ℕ) : ℝ) / (d : ℝ) := by rw [← habsE]; exact B0hi
  have hmid := cornerK_middle_le he0 heE hE1 hc0 hc2
  have he4val : ((⟨(uhi - vlo) * (uhi - vlo) * ((uhi - vlo) * (uhi - vlo)),
      d * d * (d * d)⟩ : NQ)).val = (((uhi - vlo : ℕ) : ℝ) / (d : ℝ)) ^ 4 := by
    rw [nqval_mk, div_pow]
    push_cast
    congr 1 <;> ring
  have k0ok : (cornerN d (ulo + vlo) (uhi + vhi) (ulo - vhi) (uhi - vlo)).ok := cornerN_ok hd
  have k1ok : (cornerN d (((ulo + vlo) - d) + (d - (uhi + vhi)))
      (max ((uhi + vhi) - d) (d - (ulo + vlo))) (d - (uhi - vlo)) (d - (ulo - vhi))).ok :=
    cornerN_ok hd
  have k2ok : (cornerN d (2 * d - (uhi + vhi)) (2 * d - (ulo + vlo)) (ulo - vhi)
      (uhi - vlo)).ok := cornerN_ok hd
  have e4ok : ((⟨(uhi - vlo) * (uhi - vlo) * ((uhi - vlo) * (uhi - vlo)),
      d * d * (d * d)⟩ : NQ)).ok :=
    NQ.ok_mk (Nat.mul_pos (Nat.mul_pos hd hd) (Nat.mul_pos hd hd))
  rw [NQ.val_add (NQ.ok_add k0ok (NQ.ok_pmin k1ok e4ok)) k2ok,
      NQ.val_add k0ok (NQ.ok_pmin k1ok e4ok), NQ.val_pmin k1ok e4ok]
  have hmid' : cornerK (u + v - 1) (u - v - 1)
      ≤ ((⟨(uhi - vlo) * (uhi - vlo) * ((uhi - vlo) * (uhi - vlo)),
          d * d * (d * d)⟩ : NQ)).val := by
    rw [he4val]
    exact hmid
  have hK1' := le_min hK1 hmid'
  linarith


theorem checkBoxN_sound (fuel : ℕ) : ∀ d ulo uhi vlo vhi : ℕ, 0 < d → uhi ≤ d → vhi ≤ d →
    checkBoxN fuel d ulo uhi vlo vhi = true →
    ∀ u v : ℝ, (ulo : ℝ) / (d : ℝ) ≤ u → u ≤ (uhi : ℝ) / (d : ℝ) →
    (vlo : ℝ) / (d : ℝ) ≤ v → v ≤ (vhi : ℝ) / (d : ℝ) →
    v ≤ u → cornerSum u v ≤ 1 / 70 := by
  induction fuel with
  | zero =>
    intro d ulo uhi vlo vhi hd hui hvi hcb
    simp [checkBoxN] at hcb
  | succ n ih =>
    intro d ulo uhi vlo vhi hd hui hvi hcb u v hu1 hu2 hv1 hv2 hvu
    rw [checkBoxN] at hcb
    have hdR : (0 : ℝ) < (d : ℝ) := by exact_mod_cast hd
    split_ifs at hcb with h1 h2 h3
    · exfalso
      have h1i : uhi < vlo := of_decide_eq_true h1
      have hlt0 : (uhi : ℝ) < (vlo : ℝ) := by exact_mod_cast h1i
      have hlt : (uhi : ℝ) / (d : ℝ) < (vlo : ℝ) / (d : ℝ) := by
        rw [div_lt_div_iff hdR hdR]
        exact mul_lt_mul_of_pos_right hlt0 hdR
      linarith
    · unfold inLocalN at h2
      simp only [Bool.and_eq_true, decide_eq_true_eq] at h2
      obtain ⟨⟨hL1, hL2⟩, hL3⟩ := h2
      have hL1R : (11 : ℝ) * d ≤ 20 * ((ulo : ℝ) + vlo) := by exact_mod_cast hL1
      have hL2R : (20 : ℝ) * ((uhi : ℝ) + vhi) ≤ 29 * d := by exact_mod_cast hL2
      have hL3R : (50 : ℝ) * ((uhi - vlo : ℕ) : ℝ) ≤ 9 * d := by exact_mod_cast hL3
      have hulo : (ulo : ℝ) ≤ u * d := (div_le_iff hdR).mp hu1
      have huhi : u * d ≤ (uhi : ℝ) := (le_div_iff hdR).mp hu2
      have hvlo : (vlo : ℝ) ≤ v * d := (div_le_iff hdR).mp hv1
      have hvhi : v * d ≤ (vhi : ℝ) := (le_div_iff hdR).mp hv2
      have hsub : (u - v) * d ≤ ((uhi - vlo : ℕ) : ℝ) := by
        rw [natsub_cast]
        exact le_trans (by nlinarith) (le_max_right _ _)
      have hc1 : 11 / 20 ≤ u + v := by nlinarith
      have hc2 : u + v ≤ 29 / 20 := by nlinarith
      have he1 : u - v ≤ 9 / 50 := by nlinarith
      have he0 : 0 ≤ u - v := by linarith
      unfold cornerSum
      exact cornerTriple_local hc1 hc2 he0 he1
    · have hs := sumN_sound hd hui hvi hu1 hu2 hv1 hv2 hvu
      have hv70 : ((⟨1, 70⟩ : NQ)).val = 1 / 70 := by rw [nqval_mk]; norm_num
      have hb := NQ.ple_true (sumN_ok hd) (NQ.ok_mk (by norm_num)) h3
      rw [hv70] at hb
      linarith
    · simp only [Bool.and_eq_true] at hcb
      obtain ⟨⟨⟨hA, hB⟩, hC⟩, hD⟩ := hcb
      have hd2 : 0 < 2 * d := by positivity
      have hulohi : ulo ≤ uhi := by
        have : (ulo : ℝ) ≤ (uhi : ℝ) := by
          have := le_trans hu1 hu2
          nlinarith [(div_le_div_iff hdR hdR).mp this]
        exact_mod_cast this
      have hvlohi : vlo ≤ vhi := by
        have : (vlo : ℝ) ≤ (vhi : ℝ) := by
          have := le_trans hv1 hv2
          nlinarith [(div_le_div_iff hdR hdR).mp this]
        exact_mod_cast this
      have huA : ulo + uhi ≤ 2 * d := by omega
      have huB : 2 * uhi ≤ 2 * d := by omega
      have hvA : vlo + vhi ≤ 2 * d := by omega
      have hvB : 2 * vhi ≤ 2 * d := by omega
      have cast2 : ∀ k : ℕ, ((2 * k : ℕ) : ℝ) / ((2 * d : ℕ) : ℝ) = (k : ℝ) / (d : ℝ) := by
        intro k
        push_cast
        rw [mul_div_mul_left _ _ (by norm_num : (2 : ℝ) ≠ 0)]
      have castm : ∀ a b : ℕ, ((a + b : ℕ) : ℝ) / ((2 * d : ℕ) : ℝ)
          = ((a : ℝ) + (b : ℝ)) / (2 * (d : ℝ)) := by
        intro a b
        push_cast
        ring
      rcases le_total u (((ulo : ℝ) + (uhi : ℝ)) / (2 * (d : ℝ))) with hu | hu <;>
        rcases le_total v (((vlo : ℝ) + (vhi : ℝ)) / (2 * (d : ℝ))) with hv | hv
      · exact ih (2 * d) (2 * ulo) (ulo + uhi) (2 * vlo) (vlo + vhi) hd2 huA hvA hA u v
          (by rw [cast2]; exact hu1) (by rw [castm]; exact hu)
          (by rw [cast2]; exact hv1) (by rw [castm]; exact hv) hvu
      · exact ih (2 * d) (2 * ulo) (ulo + uhi) (vlo + vhi) (2 * vhi) hd2 huA hvB hC u v
          (by rw [cast2]; exact hu1) (by rw [castm]; exact hu)
          (by rw [castm]; exact hv) (by rw [cast2]; exact hv2) hvu
      · exact ih (2 * d) (ulo + uhi) (2 * uhi) (2 * vlo) (vlo + vhi) hd2 huB hvA hB u v
          (by rw [castm]; exact hu) (by rw [cast2]; exact hu2)
          (by rw [cast2]; exact hv1) (by rw [castm]; exact hv) hvu
      · exact ih (2 * d) (ulo + uhi) (2 * uhi) (vlo + vhi) (2 * vhi) hd2 huB hvB hD u v
          (by rw [castm]; exact hu) (by rw [cast2]; exact hu2)
          (by rw [castm]; exact hv) (by rw [cast2]; exact hv2) hvu

theorem abs_add_abs_sub_eq (a b : ℝ) : |a + b| + |a - b| = 2 * max |a| |b| := by
  rcases le_total |a| |b| with hm | hm
  · rw [max_eq_right hm]
    rcases le_total 0 b with hb | hb
    · rw [abs_of_nonneg hb] at hm ⊢
      have hab := abs_le.mp hm
      rw [abs_of_nonneg (by linarith : (0 : ℝ) ≤ a + b),
          abs_of_nonpos (by linarith : a - b ≤ 0)]
      ring
    · rw [abs_of_nonpos hb] at hm ⊢
      have hab := abs_le.mp hm
      rw [abs_of_nonpos (by linarith : a + b ≤ 0),
          abs_of_nonneg (by linarith : (0 : ℝ) ≤ a - b)]
      ring
  · rw [max_eq_left hm]
    rcases le_total 0 a with ha | ha
    · rw [abs_of_nonneg ha] at hm ⊢
      have hab := abs_le.mp hm
      rw [abs_of_nonneg (by linarith : (0 : ℝ) ≤ a + b),
          abs_of_nonneg (by linarith : (0 : ℝ) ≤ a - b)]
      ring
    · rw [abs_of_nonpos ha] at hm ⊢
      have hab := abs_le.mp hm
      rw [abs_of_nonpos (by linarith : a + b ≤ 0),
          abs_of_nonpos (by linarith : a - b ≤ 0)]
      ring

theorem grad3_comp_le (k : ℕ) :
    |(((grad3.getD (k % 12) (0, 0)).1 : ℤ) : ℝ)| ≤ 1 ∧
    |(((grad3.getD (k % 12) (0, 0)).2 : ℤ) : ℝ)| ≤ 1 := by
  have h12 : k % 12 < 12 := Nat.mod_lt _ (by norm_num)
  obtain ⟨r, hr⟩ : ∃ r, r = k % 12 := ⟨_, rfl⟩
  rw [← hr] at h12 ⊢
  interval_cases r <;> constructor <;> simp [grad3]

theorem corner_term_le {c e x y : ℝ} (g1 g2 : ℝ) (hg1 : |g1| ≤ 1) (hg2 : |g2| ≤ 1)
    (hx : x = c * simplexQ + e / 2) (hy : y = c * simplexQ - e / 2) :
    |if (0.5 - x * x - y * y : ℝ) < 0 then (0 : ℝ) else
      (0.5 - x * x - y * y) * (0.5 - x * x - y * y) *
        ((0.5 - x * x - y * y) * (0.5 - x * x - y * y)) * (g1 * x + g2 * y)|
      ≤ cornerK c e := by
  have ht : (0.5 - x * x - y * y : ℝ) = 1 / 2 - c ^ 2 / 6 - e ^ 2 / 2 := by
    rw [hx, hy]
    linear_combination (-2 * c ^ 2) * simplexQ_sq
  split
  · rw [abs_zero]
    exact cornerK_nonneg c e
  next hpos =>
    push_neg at hpos
    rw [abs_mul]
    have habs1 : |(0.5 - x * x - y * y : ℝ) * (0.5 - x * x - y * y) *
        ((0.5 - x * x - y * y) * (0.5 - x * x - y * y))| = (0.5 - x * x - y * y) ^ 4 := by
      rw [abs_of_nonneg (by positivity)]
      ring
    rw [habs1]
    have hdot : |g1 * x + g2 * y| ≤ |x| + |y| := by
      calc |g1 * x + g2 * y| ≤ |g1 * x| + |g2 * y| := abs_add _ _
        _ = |g1| * |x| + |g2| * |y| := by rw [abs_mul, abs_mul]
        _ ≤ 1 * |x| + 1 * |y| :=
            add_le_add (mul_le_mul_of_nonneg_right hg1 (abs_nonneg x))
              (mul_le_mul_of_nonneg_right hg2 (abs_nonneg y))
        _ = |x| + |y| := by ring
    have hxy : |x| + |y| = 2 * max (|c| * simplexQ) (|e| / 2) := by
      rw [hx, hy]
      rw [abs_add_abs_sub_eq (c * simplexQ) (e / 2)]
      congr 1
      rw [abs_mul, abs_of_pos simplexQ_pos, abs_div]
      norm_num
    have hmax : ((0.5 - x * x - y * y : ℝ)) ^ 4 = (max 0 (1 / 2 - c ^ 2 / 6 - e ^ 2 / 2)) ^ 4 := by
      rw [ht] at hpos ⊢
      rw [max_eq_right hpos]
    calc (0.5 - x * x - y * y : ℝ) ^ 4 * |g1 * x + g2 * y|
        ≤ (0.5 - x * x - y * y : ℝ) ^ 4 * (|x| + |y|) := by
          apply mul_le_mul_of_nonneg_left hdot
          rw [hmax]
          positivity
      _ = cornerK c e := by rw [hmax, hxy]; rfl


theorem seventy_wrap {A B C ka kb kc : ℝ} (hA : |A| ≤ ka) (hBb : |B| ≤ kb) (hC : |C| ≤ kc)
    (hs : ka + kb + kc ≤ 1 / 70) : |(70.0 : ℝ) * (A + B + C)| ≤ 1 := by
  rw [abs_mul]
  have h70 : |(70.0 : ℝ)| = 70 := by norm_num
  rw [h70]
  have habc := abs_add_three A B C
  nlinarith [habc]

theorem noise_abs_le_one_aux (pt : ℕ → ℕ) (xin yin : ℝ)
    (hB : ∀ u v : ℝ, 0 ≤ u → u ≤ 1 → 0 ≤ v → v ≤ 1 → v ≤ u → cornerSum u v ≤ 1 / 70) :
    |noise pt xin yin| ≤ 1 := by
  have hw : Real.sqrt 3 ^ 2 = 3 := Real.sq_sqrt (by norm_num)
  simp only [noise]
  set s : ℝ := (xin + yin) * (0.5 * (Real.sqrt 3 - 1)) with hs
  set i : ℤ := ⌊xin + s⌋ with hi
  set j : ℤ := ⌊yin + s⌋ with hj
  set t : ℝ := ((i : ℝ) + (j : ℝ)) * ((3 - Real.sqrt 3) / 6) with htd
  set x0 : ℝ := xin - ((i : ℝ) - t) with hx0d
  set y0 : ℝ := yin - ((j : ℝ) - t) with hy0d
  obtain ⟨u, hu⟩ : ∃ r : ℝ, r = Int.fract (xin + s) := ⟨_, rfl⟩
  obtain ⟨v, hv⟩ : ∃ r : ℝ, r = Int.fract (yin + s) := ⟨_, rfl⟩
  have hu' : u = xin + s - (i : ℝ) := by rw [hu, hi]; rfl
  have hv' : v = yin + s - (j : ℝ) := by rw [hv, hj]; rfl
  have hu0 : 0 ≤ u := by rw [hu]; exact Int.fract_nonneg _
  have hu1 : u ≤ 1 := by rw [hu]; exact le_of_lt (Int.fract_lt_one _)
  have hv0 : 0 ≤ v := by rw [hv]; exact Int.fract_nonneg _
  have hv1 : v ≤ 1 := by rw [hv]; exact le_of_lt (Int.fract_lt_one _)
  have hx0c : x0 = (u + v) * simplexQ + (u - v) / 2 := by
    rw [hx0d, htd, hu', hv', hs]
    unfold simplexQ
    linear_combination (-(xin + yin) / 6) * hw
  have hy0c : y0 = (u + v) * simplexQ - (u - v) / 2 := by
    rw [hy0d, htd, hu', hv', hs]
    unfold simplexQ
    linear_combination (-(xin + yin) / 6) * hw
  have hdiff : x0 - y0 = u - v := by rw [hx0c, hy0c]; ring
  have hg0 := grad3_comp_le (pt ((i % 256).toNat + pt ((j % 256).toNat)))
  have hg2 := grad3_comp_le (pt ((i % 256).toNat + 1 + pt ((j % 256).toNat + 1)))
  have hx2c : x0 - 1 + 2 * ((3 - Real.sqrt 3) / 6)
      = ((u + v) - 2) * simplexQ + (u - v) / 2 := by
    rw [hx0d, htd, hu', hv', hs]
    unfold simplexQ
    linear_combination (-(xin + yin) / 6) * hw
  have hy2c : y0 - 1 + 2 * ((3 - Real.sqrt 3) / 6)
      = ((u + v) - 2) * simplexQ - (u - v) / 2 := by
    rw [hy0d, htd, hu', hv', hs]
    unfold simplexQ
    linear_combination (-(xin + yin) / 6) * hw
  by_cases hbr : x0 > y0
  · have hvu : v ≤ u := by linarith [hdiff]
    have hg1 := grad3_comp_le (pt ((i % 256).toNat + 1 + pt ((j % 256).toNat + 0)))
    simp only [if_pos hbr, Nat.cast_one, Nat.cast_zero]
    have hx1c : x0 - 1 + (3 - Real.sqrt 3) / 6
        = ((u + v) - 1) * simplexQ + ((u - v) - 1) / 2 := by
      rw [hx0d, htd, hu', hv', hs]
      unfold simplexQ
      linear_combination (-(xin + yin) / 6) * hw
    have hy1c : y0 - 0 + (3 - Real.sqrt 3) / 6
        = ((u + v) - 1) * simplexQ - ((u - v) - 1) / 2 := by
      rw [hy0d, htd, hu', hv', hs]
      unfold simplexQ
      linear_combination (-(xin + yin) / 6) * hw
    have hA := corner_term_le _ _ hg0.1 hg0.2 hx0c hy0c
    have hB1 := corner_term_le _ _ hg1.1 hg1.2 hx1c hy1c
    have hC := corner_term_le _ _ hg2.1 hg2.2 hx2c hy2c
    have hsum := hB u v hu0 hu1 hv0 hv1 hvu
    have hcs : cornerSum u v = cornerK (u + v) (u - v)
        + cornerK ((u + v) - 1) ((u - v) - 1) + cornerK ((u + v) - 2) (u - v) := rfl
    rw [hcs] at hsum
    exact seventy_wrap hA hB1 hC hsum
  · have hvu : u ≤ v := by push_neg at hbr; linarith [hdiff]
    have hg1 := grad3_comp_le (pt ((i % 256).toNat + 0 + pt ((j % 256).toNat + 1)))
    simp only [if_neg hbr, Nat.cast_one, Nat.cast_zero]
    have hx1c : x0 - 0 + (3 - Real.sqrt 3) / 6
        = ((u + v) - 1) * simplexQ + ((u - v) + 1) / 2 := by
      rw [hx0d, htd, hu', hv', hs]
      unfold simplexQ
      linear_combination (-(xin + yin) / 6) * hw
    have hy1c : y0 - 1 + (3 - Real.sqrt 3) / 6
        = ((u + v) - 1) * simplexQ - ((u - v) + 1) / 2 := by
      rw [hy0d, htd, hu', hv', hs]
      unfold simplexQ
      linear_combination (-(xin + yin) / 6) * hw
    have hA := corner_term_le _ _ hg0.1 hg0.2 hx0c hy0c
    have hB1 := corner_term_le _ _ hg1.1 hg1.2 hx1c hy1c
    have hC := corner_term_le _ _ hg2.1 hg2.2 hx2c hy2c
    have hsum := hB v u hv0 hv1 hu0 hu1 hvu
    have hcs2 : cornerSum v u = cornerK (u + v) (u - v)
        + cornerK ((u + v) - 1) ((u - v) + 1) + cornerK ((u + v) - 2) (u - v) := by
      unfold cornerSum
      rw [show v + u = u + v from add_comm v u,
          show v - u = -(u - v) from by ring,
          show -(u - v) - 1 = -((u - v) + 1) from by ring,
          cornerK_even, cornerK_even, cornerK_even]
    rw [hcs2] at hsum
    exact seventy_wrap hA hB1 hC hsum


theorem octaveLoop_bounds (pt : ℕ → ℕ) (x y scale : ℝ)
    (hN : ∀ a b : ℝ, |noise pt a b| ≤ 1) (o : ℕ) :
    (octaveLoop pt x y scale o).2.1 = (1 / 2 : ℝ) ^ o ∧
    (octaveLoop pt x y scale o).2.2.2 = 2 - 2 * (1 / 2 : ℝ) ^ o ∧
    |(octaveLoop pt x y scale o).1| ≤ (octaveLoop pt x y scale o).2.2.2 := by
  induction o with
  | zero => simp [octaveLoop]
  | succ n ih =>
    obtain ⟨hamp, hmax, hnv⟩ := ih
    have hamp0 : (0 : ℝ) ≤ (octaveLoop pt x y scale n).2.1 := by rw [hamp]; positivity
    have hz := hN ((x / scale) * (octaveLoop pt x y scale n).2.2.1)
      ((y / scale) * (octaveLoop pt x y scale n).2.2.1)
    simp only [octaveLoop, octaveStep]
    refine ⟨?_, ?_, ?_⟩
    · rw [hamp]; ring
    · rw [hmax, hamp]; ring
    · calc |(octaveLoop pt x y scale n).1
            + noise pt ((x / scale) * (octaveLoop pt x y scale n).2.2.1)
                ((y / scale) * (octaveLoop pt x y scale n).2.2.1)
              * (octaveLoop pt x y scale n).2.1|
          ≤ |(octaveLoop pt x y scale n).1|
            + |noise pt ((x / scale) * (octaveLoop pt x y scale n).2.2.1)
                ((y / scale) * (octaveLoop pt x y scale n).2.2.1)|
              * |(octaveLoop pt x y scale n).2.1| := by
            refine le_trans (abs_add _ _) ?_
            rw [abs_mul]
        _ ≤ (octaveLoop pt x y scale n).2.2.2 + 1 * (octaveLoop pt x y scale n).2.1 := by
            have h1 : |(octaveLoop pt x y scale n).2.1| = (octaveLoop pt x y scale n).2.1 :=
              abs_of_nonneg hamp0
            rw [h1]
            exact add_le_add hnv (mul_le_mul_of_nonneg_right hz hamp0)
        _ = (octaveLoop pt x y scale n).2.2.2 + (octaveLoop pt x y scale n).2.1 := by ring

theorem fractalNormalized_mem (pt : ℕ → ℕ) (x y scale : ℝ) (octaves : ℕ)
    (ho : 1 ≤ octaves) (hN : ∀ a b : ℝ, |noise pt a b| ≤ 1) :
    0 ≤ fractalNormalized pt x y scale octaves ∧ fractalNormalized pt x y scale octaves ≤ 1 := by
  obtain ⟨hamp, hmax, hnv⟩ := octaveLoop_bounds pt x y scale hN octaves
  unfold fractalNormalized
  have hp : ((1 : ℝ) / 2) ^ octaves ≤ (1 / 2 : ℝ) ^ 1 :=
    pow_le_pow_of_le_one (by norm_num) (by norm_num) ho
  have hp1 : ((1 : ℝ) / 2) ^ 1 = 1 / 2 := by norm_num
  rw [hp1] at hp
  have hmax1 : 1 ≤ (octaveLoop pt x y scale octaves).2.2.2 := by rw [hmax]; linarith
  have hmaxpos : 0 < (octaveLoop pt x y scale octaves).2.2.2 := by linarith
  have habs := abs_le.mp hnv
  have hlo : -1 ≤ (octaveLoop pt x y scale octaves).1 / (octaveLoop pt x y scale octaves).2.2.2 :=
    (le_div_iff hmaxpos).mpr (by linarith [habs.1])
  have hhi : (octaveLoop pt x y scale octaves).1 / (octaveLoop pt x y scale octaves).2.2.2 ≤ 1 :=
    (div_le_one hmaxpos).mpr (by linarith [habs.2])
  constructor
  · linarith
  · linarith


set_option maxRecDepth 100000 in
theorem checkBoxN_cert : checkBoxN 14 1 0 1 0 1 = true := by rfl

theorem cornerSum_le {u v : ℝ} (hu0 : 0 ≤ u) (hu1 : u ≤ 1) (hv0 : 0 ≤ v) (hv1 : v ≤ 1)
    (hvu : v ≤ u) : cornerSum u v ≤ 1 / 70 := by
  refine checkBoxN_sound 14 1 0 1 0 1 one_pos (le_refl 1) (le_refl 1) checkBoxN_cert u v
    ?_ ?_ ?_ ?_ hvu
  · push_cast
    rw [div_one]
    exact hu0
  · push_cast
    rw [div_one]
    exact hu1
  · push_cast
    rw [div_one]
    exact hv0
  · push_cast
    rw [div_one]
    exact hv1

theorem noise_abs_le_one (pt : ℕ → ℕ) (xin yin : ℝ) : |noise pt xin yin| ≤ 1 :=
  noise_abs_le_one_aux pt xin yin fun _ _ hu0 hu1 hv0 hv1 hvu =>
    cornerSum_le hu0 hu1 hv0 hv1 hvu

/-- C7: for every permutation table (hence every seed), every coordinate pair and
every octave count in [1, 6], the single-octave simplex sample 70 * (n0 + n1 + n2)
lies in [-1, 1], and the normalized fractal value (noiseValue / maxValue + 1) / 2
lies in [0, 1]. -/
theorem noise_fractal_bounded :
    (∀ (pt : ℕ → ℕ) (xin yin : ℝ), |noise pt xin yin| ≤ 1) ∧
    (∀ (seed x y scale : ℝ) (octaves : ℕ), 1 ≤ octaves → octaves ≤ 6 →
      0 ≤ fractalNormalized (permOfSeed seed) x y scale octaves ∧
        fractalNormalized (permOfSeed seed) x y scale octaves ≤ 1) :=
  ⟨noise_abs_le_one, fun seed x y scale octaves ho _ =>
    fractalNormalized_mem (permOfSeed seed) x y scale octaves ho
      (noise_abs_le_one (permOfSeed seed))⟩

/-- Witness for C7: the fractal bounds instantiated at seed 42, pixel (3, 5),
scale 50 and the default octave count 3. -/
theorem noise_fractal_bounded_witness :
    0 ≤ fractalNormalized (permOfSeed 42) 3 5 50 3 ∧
      fractalNormalized (permOfSeed 42) 3 5 50 3 ≤ 1 :=
  noise_fractal_bounded.2 42 3 5 50 3 (by norm_num) (by norm_num)

end PaperCut
